import Mathlib

/-!
Formal model of `atomvision/data/stem.py` (repository `atomvision`).

The Python module builds simulated-STEM training samples: it paints
atom-footprint label masks (`atomic_radius_mask`), reconstructs an
attributed atom graph from a pixel mask (`atom_mask_to_graph`),
computes bond displacement vectors (`bond_vectors`), and wraps the
whole pipeline in two dataset classes (`Jarvis2dSTEMDataset`,
`Jarvis2dSTEMGraphDataset`) with a deterministic train/val/test split
(`split_dataset`).

This file embeds those functions shallowly: images and masks are
rectangular lists of rationals / naturals, machine floats that matter
(the `int(N * 0.1)` cast in `split_dataset`) are modelled exactly as
IEEE-754 binary64 arithmetic, and external collaborators (the torch
seeded permutation, the image simulator, the pixel classifier, the
jarvis species-radius table) are passed in as explicit arguments.
-/

namespace Atomvision

/-! ## Basic grid (2-D array) model

Images (`numpy` 2-D float arrays) are modelled as `Grid ℚ`, label
masks (integer arrays) as `Grid ℕ`: a list of rows. -/

abbrev Grid (α : Type) : Type := List (List α)

abbrev Pix : Type := ℕ × ℕ

/-- Read entry `(r, c)` of a grid, with default `d` out of range. -/
def gget {α : Type} (g : Grid α) (d : α) (p : Pix) : α :=
  (g.getD p.1 []).getD p.2 d

/-- An all-zero `H × W` integer grid (`np.zeros(shape, dtype=int)`). -/
def zeroGrid (H W : ℕ) : Grid ℕ :=
  List.replicate H (List.replicate W 0)

/-- Write value `v` at entry `(r, c)`; out-of-range writes are dropped. -/
def gset {α : Type} (g : Grid α) (p : Pix) (v : α) : Grid α :=
  g.set p.1 ((g.getD p.1 []).set p.2 v)

/-- The grid has `H` rows of width `W` each. -/
def GridWF {α : Type} (g : Grid α) (H W : ℕ) : Prop :=
  g.length = H ∧ ∀ row ∈ g, row.length = W

/-- Shape of a grid, as numpy `arr.shape` (rows, cols of first row). -/
def gshape {α : Type} (g : Grid α) : ℕ × ℕ :=
  (g.length, (g.headD []).length)

/-! ## Error taxonomy

The Python code signals these situations with `KeyError` (missing
species in the `RADII` dict), `NotImplementedError` (bad `label_mode`)
and an out-of-range index from `df.iloc`; the spec names them
`UnknownSpeciesError` and `ConfigurationError`.  One inductive covers
them. -/

inductive StemError : Type where
  | unknownSpecies (z : ℕ)
  | unsupportedLabelMode (mode : String)
  | indexOutOfRange (idx : ℕ)
  | noneNotCallable
  deriving DecidableEq

/-- Whether an `Except` is in the error case. -/
def isErr {ε α : Type} : Except ε α → Bool
  | .error _ => true
  | .ok _ => false

instance exceptDecidableEq {ε α : Type} [DecidableEq ε] [DecidableEq α] :
    DecidableEq (Except ε α) := fun a b =>
  match a, b with
  | .ok x, .ok y =>
      if h : x = y then isTrue (by rw [h])
      else isFalse fun hc => h (by injection hc)
  | .error e, .error f =>
      if h : e = f then isTrue (by rw [h])
      else isFalse fun hc => h (by injection hc)
  | .ok _, .error _ => isFalse fun hc => Except.noConfusion hc
  | .error _, .ok _ => isFalse fun hc => Except.noConfusion hc

/-! ## split_dataset (source lines 107-121)

`n_val = int(N * val_frac)` is evaluated in Python float (binary64)
arithmetic with `val_frac = 0.1`.  The literal `0.1` rounds to
`3602879701896397 / 2^55`; the product with the exact integer `N`
(exact for `N < 2^53`) is rounded to nearest-even at 53 significant
bits, and `int` truncates toward zero.  We model that computation
exactly over ℕ. -/

/-- Mantissa numerator of `0.1` as an IEEE-754 binary64: the literal
`0.1` rounds to `3602879701896397 / 2 ^ 55`. -/
def floatTenthNum : ℕ := 3602879701896397

/-- Bit length of a natural number, with fuel for structural recursion. -/
def bitLenAux : ℕ → ℕ → ℕ
  | 0, _ => 0
  | fuel + 1, n => if n = 0 then 0 else bitLenAux fuel (n / 2) + 1

/-- Bit length of a natural number (fuel 256 covers every value that a
dataset size multiplied by `floatTenthNum` can reach). -/
def bitLen (n : ℕ) : ℕ := bitLenAux 256 n

/-- Round `P / 2 ^ s` to the nearest integer, ties to even: the IEEE
default rounding applied to a 53-bit significand. -/
def roundNE (P s : ℕ) : ℕ :=
  if 2 * (P % 2 ^ s) < 2 ^ s then P / 2 ^ s
  else if 2 ^ s < 2 * (P % 2 ^ s) then P / 2 ^ s + 1
  else if P / 2 ^ s % 2 = 0 then P / 2 ^ s else P / 2 ^ s + 1

/-- The Python expression `int(N * 0.1)`, evaluated in binary64: form
the exact product `N * (3602879701896397 / 2^55)`, round its
significand to 53 bits (nearest-even), truncate toward zero.  Faithful
for `N < 2 ^ 53` (integers exactly representable in binary64). -/
def intMulTenth (N : ℕ) : ℕ :=
  let P := N * floatTenthNum
  let s := bitLen P - 53
  roundNE P s * 2 ^ s / 2 ^ 55

/-- Source line 109: `n_val = int(N * val_frac)` with `val_frac = 0.1`. -/
def n_val (N : ℕ) : ℕ := intMulTenth N

/-- Source line 110: `n_test = int(N * test_frac)` with `test_frac = 0.1`. -/
def n_test (N : ℕ) : ℕ := intMulTenth N

/-- Source line 111: `n_train = N - (n_val + n_test)`. -/
def n_train (N : ℕ) : ℕ := N - (n_val N + n_test N)

/-- Source lines 113-121: slice the seeded permutation `shuf`
(`torch.manual_seed(0); shuf = torch.randperm(N)`) into three
contiguous blocks.  The permutation is an explicit argument: torch's
generator is an external collaborator, deterministic once seeded. -/
def split_dataset (N : ℕ) (shuf : List ℕ) : List ℕ × List ℕ × List ℕ :=
  let train_ids := shuf.take (n_train N)
  let val_ids := (shuf.drop (n_train N)).take (n_val N)
  let test_ids := (shuf.drop (n_train N + n_val N)).take (n_test N)
  (train_ids, val_ids, test_ids)

/-! ## atomic_radius_mask (source lines 32-44) -/

/-- Membership of pixel `p = (r, c)` in the disk that
`skimage.draw.disk(center, radius)` rasterizes: skimage's `ellipse`
keeps the pixels at normalized distance strictly below 1. -/
def inDisk (center : ℚ × ℚ) (radius : ℚ) (p : Pix) : Bool :=
  decide (((p.1 : ℚ) - center.1) ^ 2 + ((p.2 : ℚ) - center.2) ^ 2 < radius ^ 2)

/-- Pixel list of `skimage.draw.disk(center, radius, shape=shape)`: the
disk clipped to the `shape.1 × shape.2` image bounds, in raster order. -/
def diskPixels (center : ℚ × ℚ) (radius : ℚ) (shape : ℕ × ℕ) : List Pix :=
  (List.range shape.1).flatMap fun r =>
    (List.range shape.2).filterMap fun c =>
      if inDisk center radius (r, c) then some (r, c) else none

/-- Source line 42: `labels[rr, cc] = n` writes the atomic number into
every pixel of the rasterized disk. -/
def paintDisk (labels : Grid ℕ) (pix : List Pix) (n : ℕ) : Grid ℕ :=
  pix.foldl (fun g p => gset g p n) labels

/-- One iteration of the `atomic_radius_mask` loop (source lines
39-42): look the atomic number up in the radius table — Python raises
`KeyError` from `RADII[n]` when it is absent — then paint the disk of
pixel radius `0.5 * RADII[n] / px_scale` clipped to the image. -/
def paintAtom (shape : ℕ × ℕ) (radii : ℕ → Option ℚ) (px_scale : ℚ)
    (labels : Grid ℕ) (a : (ℚ × ℚ) × ℕ) : Except StemError (Grid ℕ) :=
  match radii a.2 with
  | none => .error (.unknownSpecies a.2)
  | some rad =>
      .ok (paintDisk labels (diskPixels a.1 (0.5 * rad / px_scale) shape) a.2)

/-- Source lines 32-44, `atomic_radius_mask(shape, X, N, px_scale)`:
start from `np.zeros(shape)`, zip positions with atomic numbers
(`zip(X, N)`), and paint each atom's disk in input order, later atoms
overwriting earlier ones.  The species-radius table (module constant
`RADII`, built from the external jarvis `chem_data`) is an explicit
argument `radii`. -/
def atomic_radius_mask (shape : ℕ × ℕ) (X : List (ℚ × ℚ)) (N : List ℕ)
    (radii : ℕ → Option ℚ) (px_scale : ℚ) : Except StemError (Grid ℕ) :=
  (X.zip N).foldlM (paintAtom shape radii px_scale) (zeroGrid shape.1 shape.2)

/-- Pure repaint fold describing a successful `atomic_radius_mask` run
(atoms with unknown species paint nothing; the success path has none). -/
def paintAtoms (shape : ℕ × ℕ) (radii : ℕ → Option ℚ) (px_scale : ℚ)
    (atoms : List ((ℚ × ℚ) × ℕ)) (labels : Grid ℕ) : Grid ℕ :=
  atoms.foldl (fun g a =>
    match radii a.2 with
    | none => g
    | some rad =>
        paintDisk g (diskPixels a.1 (0.5 * rad / px_scale) shape) a.2) labels

/-- Whether atom `a` paints pixel `p`: its species is in the table and
`p` lies in its clipped disk of pixel radius `0.5 * radius / px_scale`. -/
def covers (shape : ℕ × ℕ) (radii : ℕ → Option ℚ) (px_scale : ℚ)
    (a : (ℚ × ℚ) × ℕ) (p : Pix) : Bool :=
  match radii a.2 with
  | none => false
  | some rad => decide (p ∈ diskPixels a.1 (0.5 * rad / px_scale) shape)

/-- The last atom in input order that paints pixel `p`, if any: the
atomic number `atomic_radius_mask` leaves at `p`. -/
def lastCover (shape : ℕ × ℕ) (radii : ℕ → Option ℚ) (px_scale : ℚ)
    (atoms : List ((ℚ × ℚ) × ℕ)) (p : Pix) : Option ℕ :=
  ((atoms.filter (fun a => covers shape radii px_scale a p)).getLast?).map
    (fun a => a.2)

/-- Species-radius table used by concrete witnesses. -/
def exampleRadii : ℕ → Option ℚ := fun z => if z ≤ 2 then some 3 else none

/-! ## atom_mask_to_graph (source lines 174-217)

Connected-component labeling of `skimage.measure.label` (8-connectivity,
same-value regions, labels in first-pixel raster order), region
properties, and the radius graph over centroid positions. -/

/-- Chebyshev adjacency of two distinct pixels: 8-connectivity, the
`measure.label` default for 2-D input. -/
def adj8 (p q : Pix) : Bool :=
  decide (max p.1 q.1 - min p.1 q.1 ≤ 1) &&
    decide (max p.2 q.2 - min p.2 q.2 ≤ 1) && decide (p ≠ q)

/-- Two pixels belong to the same region when they are 8-neighbors with
the same nonzero mask value. -/
def sameRegionAdj (mask : Grid ℕ) (p q : Pix) : Bool :=
  adj8 p q && decide (gget mask 0 p ≠ 0) &&
    decide (gget mask 0 p = gget mask 0 q)

/-- Foreground (nonzero) pixels of the mask, in raster order. -/
def fgPixels (mask : Grid ℕ) : List Pix :=
  (List.range mask.length).flatMap fun r =>
    (List.range (mask.getD r []).length).filterMap fun c =>
      if gget mask 0 (r, c) ≠ 0 then some (r, c) else none

/-- One growth step of the flood fill: move every remaining pixel that
touches the current component into it. -/
def growComp (mask : Grid ℕ) (comp rest : List Pix) : List Pix × List Pix :=
  rest.partition fun q => comp.any fun p => sameRegionAdj mask p q

/-- Flood fill, with fuel bounding the number of growth rounds. -/
def floodAux (mask : Grid ℕ) : ℕ → List Pix → List Pix → List Pix × List Pix
  | 0, comp, rest => (comp, rest)
  | fuel + 1, comp, rest =>
      let pr := growComp mask comp rest
      floodAux mask fuel (comp ++ pr.1) pr.2

/-- Component extraction: repeatedly flood from the first unassigned
foreground pixel; components therefore appear in first-pixel raster
order, matching the 1-based label order of `measure.label`. -/
def componentsAux (mask : Grid ℕ) : ℕ → List Pix → List (List Pix)
  | 0, _ => []
  | _ + 1, [] => []
  | fuel + 1, p :: rest =>
      let pr := floodAux mask rest.length [p] rest
      pr.1 :: componentsAux mask fuel pr.2

/-- Connected-component analysis `rlab = measure.label(label)` (source
line 187), as the pixel sets of labels 1, 2, ... -/
def components (mask : Grid ℕ) : List (List Pix) :=
  componentsAux mask (fgPixels mask).length (fgPixels mask)

/-- Largest entry of the image (`image.max()`); numpy rejects an empty
array, so the 0 returned for an empty grid is never exercised. -/
def imageMax (img : Grid ℚ) : ℚ :=
  match img.flatMap id with
  | [] => 0
  | v :: vs => vs.foldl max v

/-- One pixel of `image / image.max()`: when the maximum is zero numpy
emits a division-by-zero warning and produces non-finite values
(NaN/inf), modelled as `none`; no exception is raised. -/
def pixelDivMax (m v : ℚ) : Option ℚ := if m = 0 then none else some (v / m)

/-- The normalized intensity image `image / image.max()` handed to
`measure.regionprops_table` (source line 193). -/
def normalizeImage (img : Grid ℚ) : Grid (Option ℚ) :=
  img.map fun row => row.map (pixelDivMax (imageMax img))

/-- Intensity samples of one region, in pixel order. -/
def regionVals (nimg : Grid (Option ℚ)) (comp : List Pix) : List (Option ℚ) :=
  comp.map fun p => gget nimg none p

/-- Sum of region samples; a non-finite sample (`none`) is absorbing. -/
def optSum : List (Option ℚ) → Option ℚ
  | [] => some 0
  | v :: vs =>
      match v, optSum vs with
      | some a, some b => some (a + b)
      | _, _ => none

/-- Mean of region samples (the `mean_intensity` column). -/
def optMean (vals : List (Option ℚ)) : Option ℚ :=
  (optSum vals).map fun s => s / (vals.length : ℚ)

/-- Min/max fold of region samples (`min_intensity`, `max_intensity`). -/
def optFold (f : ℚ → ℚ → ℚ) : List (Option ℚ) → Option ℚ
  | [] => none
  | [v] => v
  | v :: vs =>
      match v, optFold f vs with
      | some a, some b => some (f a b)
      | _, _ => none

/-- One row of `measure.regionprops_table` (source lines 190-203):
label, sub-pixel centroid `(row, col)`, pixel count, and intensity
statistics over the normalized image.  The `equivalent_diameter`
column (`sqrt(4 * area / pi)`) is irrational and referenced by no
claim; the `area` it is derived from is kept instead. -/
structure RegionRow where
  label : ℕ
  centroid0 : ℚ
  centroid1 : ℚ
  area : ℕ
  min_intensity : Option ℚ
  mean_intensity : Option ℚ
  max_intensity : Option ℚ
  deriving DecidableEq

/-- Region-property table over the component list, labels 1-based in
component order. -/
def regionprops_table (comps : List (List Pix)) (nimg : Grid (Option ℚ)) :
    List RegionRow :=
  comps.enum.map fun ic =>
    { label := ic.1 + 1,
      centroid0 := (ic.2.map fun p => (p.1 : ℚ)).sum / (ic.2.length : ℚ),
      centroid1 := (ic.2.map fun p => (p.2 : ℚ)).sum / (ic.2.length : ℚ),
      area := ic.2.length,
      min_intensity := optFold min (regionVals nimg ic.2),
      mean_intensity := optMean (regionVals nimg ic.2),
      max_intensity := optFold max (regionVals nimg ic.2) }

/-- A graph node (source lines 206-210): physical position
`(centroid-1, centroid-0, 0) * px_angstrom` and mean intensity.  The
third node attribute `r = 0.5 * equivalent_diameter * px_angstrom`
involves the same irrational square root and is referenced by no
claim. -/
structure AtomNode where
  pos : ℚ × ℚ × ℚ
  intensity : Option ℚ
  deriving DecidableEq

/-- The undirected networkx graph of `atom_mask_to_graph`: node list in
ascending label order, edge list of index pairs. -/
structure AtomGraph where
  px_angstrom : ℚ
  nodes : List AtomNode
  edges : List (ℕ × ℕ)
  deriving DecidableEq

/-- Squared Euclidean distance of two planar points. -/
def dist2 (a b : ℚ × ℚ) : ℚ := (a.1 - b.1) ^ 2 + (a.2 - b.2) ^ 2

/-- Model of `scipy.spatial.KDTree(points).query_pairs(r)` (source
lines 214-215): all index pairs `(i, j)` with `i < j` whose points lie
at Euclidean distance at most `r` (scipy: pairs "whose distance is at
most r"), each unordered pair listed once. -/
def query_pairs (pts : List (ℚ × ℚ)) (r : ℚ) : List (ℕ × ℕ) :=
  (List.range pts.length).flatMap fun i =>
    (List.range pts.length).filterMap fun j =>
      if i < j ∧ dist2 (pts.getD i (0, 0)) (pts.getD j (0, 0)) ≤ r ^ 2 then
        some (i, j)
      else none

/-- Source lines 174-217, `atom_mask_to_graph(label, image, px_angstrom,
cutoff_angstrom)`: connected components of the mask, region properties
over the max-normalized intensity image, nodes at physical centroid
positions `(centroid-1, centroid-0, 0) * px_angstrom`, and radius-graph
edges between centroids within the cutoff. -/
def atom_mask_to_graph (label : Grid ℕ) (image : Grid ℚ)
    (px_angstrom cutoff_angstrom : ℚ) : AtomGraph × List RegionRow :=
  let comps := components label
  let props := regionprops_table comps (normalizeImage image)
  let nodes := props.map fun row =>
    { pos := (row.centroid1 * px_angstrom, row.centroid0 * px_angstrom, 0),
      intensity := row.mean_intensity : AtomNode }
  let points := props.map fun row =>
    (row.centroid1 * px_angstrom, row.centroid0 * px_angstrom)
  ({ px_angstrom := px_angstrom, nodes := nodes,
     edges := query_pairs points cutoff_angstrom }, props)

/-- Planar projection of a node position (the coordinates the KD-tree
indexes). -/
def nodePoint (nd : AtomNode) : ℚ × ℚ := (nd.pos.1, nd.pos.2.1)

/-- Default node used by positional lookups. -/
def dN : AtomNode := { pos := (0, 0, 0), intensity := none }

/-! ## bond_vectors and the dgl layer (source lines 220-224, 276-285) -/

/-- Componentwise difference of 3-vectors. -/
def vsub (a b : ℚ × ℚ × ℚ) : ℚ × ℚ × ℚ :=
  (a.1 - b.1, a.2.1 - b.2.1, a.2.2 - b.2.2)

/-- Componentwise scaling of a 3-vector. -/
def vscale (c : ℚ) (a : ℚ × ℚ × ℚ) : ℚ × ℚ × ℚ :=
  (c * a.1, c * a.2.1, c * a.2.2)

/-- Source lines 220-224, `bond_vectors(edges)`: for a batch of edges
carrying source positions `u` and destination positions `v`, return
`r = v - u` (destination minus source). -/
def bond_vectors (edges : List ((ℚ × ℚ × ℚ) × (ℚ × ℚ × ℚ))) :
    List (ℚ × ℚ × ℚ) :=
  edges.map fun uv => vsub uv.2 uv.1

/-- Directed edge list of `dgl.from_networkx`: each undirected networkx
edge appears in both orientations. -/
def dglEdges (edges : List (ℕ × ℕ)) : List (ℕ × ℕ) :=
  edges.flatMap fun e => [(e.1, e.2), (e.2, e.1)]

/-- Node position lookup backing `edges.src["pos"]` / `edges.dst["pos"]`. -/
def nodePos (nodes : List AtomNode) (i : ℕ) : ℚ × ℚ × ℚ :=
  (nodes.getD i dN).pos

/-! ## Jarvis2dSTEMDataset (source lines 59-171) -/

/-- Source line 24: `LABEL_MODES = {"delta", "radius"}`. -/
def LABEL_MODES : List String := ["delta", "radius"]

/-- Configuration and frozen split of `Jarvis2dSTEMDataset`; `α` is the
opaque payload of one dataframe row (atoms dict, jid, crys). -/
structure Jarvis2dSTEMDataset (α : Type) where
  px_scale : ℚ
  label_mode : String
  rotation_degrees : Option ℚ
  shift_angstrom : Option ℚ
  zoom_pct : Option ℚ
  to_tensor : Option (Grid ℚ → Grid ℚ)
  df : List α
  train_ids : List ℕ
  val_ids : List ℕ
  test_ids : List ℕ

/-- Source lines 62-105 (`Jarvis2dSTEMDataset.__init__`): validate
`label_mode` first (`NotImplementedError`, the spec's
`UnsupportedLabelModeError`), store the configuration, and freeze the
seeded split.  `randperm` stands for torch's generator right after
`torch.manual_seed(0)`: an external collaborator and a fixed function
of `N`. -/
def datasetInit (α : Type) (px_scale : ℚ) (label_mode : String)
    (image_data : List α)
    (rotation_degrees shift_angstrom zoom_pct : Option ℚ)
    (to_tensor : Option (Grid ℚ → Grid ℚ)) (randperm : ℕ → List ℕ) :
    Except StemError (Jarvis2dSTEMDataset α) :=
  if label_mode ∈ LABEL_MODES then
    let split := split_dataset image_data.length (randperm image_data.length)
    .ok { px_scale := px_scale, label_mode := label_mode,
          rotation_degrees := rotation_degrees,
          shift_angstrom := shift_angstrom, zoom_pct := zoom_pct,
          to_tensor := to_tensor, df := image_data,
          train_ids := split.1, val_ids := split.2.1, test_ids := split.2.2 }
  else .error (.unsupportedLabelMode label_mode)

/-- Output contract of the external simulator
`STEMConv.simulate_surface` (source lines 152-154). -/
structure SimResult where
  image : Grid ℚ
  label : Grid ℕ
  pos : List (ℚ × ℚ)
  nb : List ℕ

/-- The fresh per-access augmentation draws (`np.random.uniform`
values): rotation angle, planar shift, zoom offset. -/
structure AugDraws where
  rot : ℚ
  shift_x : ℚ
  shift_y : ℚ
  zoom : ℚ

/-- Source lines 133-150: effective rotation, shift and pixel scale of
one access — identity defaults (0, (0, 0), `px_scale`), overridden only
when the matching augmentation parameter is not `None`. -/
def effectiveParams (α : Type) (d : Jarvis2dSTEMDataset α)
    (draws : AugDraws) : ℚ × (ℚ × ℚ) × ℚ :=
  let rot := match d.rotation_degrees with
    | none => 0
    | some _ => draws.rot
  let shift := match d.shift_angstrom with
    | none => ((0 : ℚ), (0 : ℚ))
    | some _ => (draws.shift_x, draws.shift_y)
  let px := match d.zoom_pct with
    | none => d.px_scale
    | some _ => d.px_scale * (1 + draws.zoom)
  (rot, shift, px)

/-- The boolean training label `label > 0` (source line 164), as a 0/1
grid. -/
def boolMask (label : Grid ℕ) : Grid ℕ :=
  label.map fun row => row.map fun v => if 0 < v then 1 else 0

/-- One sample of `Jarvis2dSTEMDataset.__getitem__` (source lines
162-168); the structure id and crystal tag are copied verbatim from
the opaque row and not modelled. -/
structure Sample where
  image : Grid ℚ
  label : Grid ℕ
  px_scale : ℚ

/-- Source lines 127-171 (`Jarvis2dSTEMDataset.__getitem__`): look the
row up (`df.iloc` raises on a bad index), compute the effective
augmentation parameters, call the external simulator, rebuild the
label with `atomic_radius_mask` in radius mode, optionally apply
`to_tensor` to the image, and threshold the label. -/
def datasetGetitem (α : Type) (d : Jarvis2dSTEMDataset α)
    (radii : ℕ → Option ℚ) (sim : α → ℚ → ℚ → ℚ × ℚ → SimResult)
    (idx : ℕ) (draws : AugDraws) : Except StemError Sample :=
  match d.df.get? idx with
  | none => .error (.indexOutOfRange idx)
  | some row =>
      let ep := effectiveParams α d draws
      let res := sim row ep.2.2 ep.1 ep.2.1
      let labelE : Except StemError (Grid ℕ) :=
        if d.label_mode = "radius" then
          atomic_radius_mask (gshape res.image) res.pos res.nb radii ep.2.2
        else .ok res.label
      labelE.map fun lab =>
        { image := match d.to_tensor with
            | none => res.image
            | some f => f res.image,
          label := boolMask lab,
          px_scale := ep.2.2 }

/-! ## Jarvis2dSTEMGraphDataset (source lines 227-292) -/

/-- The graph dataset: the base dataset plus the injected pixel
classifier and the debug flag. -/
structure Jarvis2dSTEMGraphDataset (α : Type) where
  base : Jarvis2dSTEMDataset α
  pixel_classifier : Option (Grid ℚ → Grid ℕ)
  debug : Bool

/-- Source lines 230-265 (`Jarvis2dSTEMGraphDataset.__init__`): calls
`super().__init__(px_scale=, label_mode=, image_data=)` only — the
accepted `to_tensor` argument is dropped, and the base augmentation
parameters stay at their `None` defaults. -/
def graphDatasetInit (α : Type) (px_scale : ℚ) (label_mode : String)
    (image_data : List α) (to_tensor : Option (Grid ℚ → Grid ℚ))
    (pixel_classifier : Option (Grid ℚ → Grid ℕ)) (debug : Bool)
    (randperm : ℕ → List ℕ) :
    Except StemError (Jarvis2dSTEMGraphDataset α) :=
  (datasetInit α px_scale label_mode image_data none none none none
    randperm).map fun b =>
      { base := b, pixel_classifier := pixel_classifier, debug := debug }

/-- The graph-augmented sample of
`Jarvis2dSTEMGraphDataset.__getitem__`: base sample, networkx graph,
directed dgl edge list and its edge attribute `r`. -/
structure GraphSample where
  sample : Sample
  g : AtomGraph
  dgl_edges : List (ℕ × ℕ)
  edata_r : List (ℚ × ℚ × ℚ)

/-- Source lines 267-292 (`Jarvis2dSTEMGraphDataset.__getitem__`): base
sample, mask choice (`debug` takes the ground-truth thresholded label,
otherwise the external pixel classifier runs on the image; calling a
`None` classifier is Python's `TypeError`), graph construction with
`atom_mask_to_graph`'s DEFAULT arguments `px_angstrom=0.1,
cutoff_angstrom=4`, dgl conversion, `bond_vectors`, and the rescaling
`g.edata["r"] = g.edata["r"] * self.px_scale` of source line 285.  The
node-feature stack of lines 288-289 uses the unmodelled
equivalent-radius attribute and is referenced by no claim. -/
def graphDatasetGetitem (α : Type) (gd : Jarvis2dSTEMGraphDataset α)
    (radii : ℕ → Option ℚ) (sim : α → ℚ → ℚ → ℚ × ℚ → SimResult)
    (idx : ℕ) (draws : AugDraws) : Except StemError GraphSample :=
  (datasetGetitem α gd.base radii sim idx draws).bind fun sample =>
    (if gd.debug then Except.ok sample.label
     else match gd.pixel_classifier with
       | some f => Except.ok (f sample.image)
       | none => Except.error StemError.noneNotCallable).map
      fun predicted_label =>
        let gp := atom_mask_to_graph predicted_label sample.image (1 / 10) 4
        let de := dglEdges gp.1.edges
        let srcdst := de.map fun e =>
          (nodePos gp.1.nodes e.1, nodePos gp.1.nodes e.2)
        { sample := sample, g := gp.1, dgl_edges := de,
          edata_r := (bond_vectors srcdst).map (vscale gd.base.px_scale) }

/-! ## Concrete inputs for witnesses and counterexamples -/

/-- A 1 × 31 mask row: foreground pixels at columns 0 and 30. -/
def exampleRowN : List ℕ := [1] ++ List.replicate 29 0 ++ [1]

/-- The matching 1 × 31 intensity row. -/
def exampleRow : List ℚ := [1] ++ List.replicate 29 0 ++ [1]

/-- Simulator stub returning the 1 × 31 image/label pair regardless of
its arguments. -/
def exampleSim : Unit → ℚ → ℚ → ℚ × ℚ → SimResult := fun _ _ _ _ =>
  { image := [exampleRow], label := [exampleRowN], pos := [], nb := [] }

/-- Permutation source standing in for the seeded `torch.randperm`. -/
def exampleRandperm : ℕ → List ℕ := fun n => List.range n

/-- Nonzero augmentation draws (they must have no effect on
unaugmented datasets). -/
def exampleDraws : AugDraws :=
  { rot := 1, shift_x := 2, shift_y := 3, zoom := 4 }

/-- A second set of draws, different from `exampleDraws`. -/
def exampleDraws2 : AugDraws :=
  { rot := 5, shift_x := 6, shift_y := 7, zoom := 8 }

/-- The graph dataset that `graphDatasetInit Unit (1/10) "delta" [()]
... exampleRandperm` constructs. -/
def exampleGraphDataset : Jarvis2dSTEMGraphDataset Unit :=
  { base := { px_scale := 1 / 10, label_mode := "delta",
              rotation_degrees := none, shift_angstrom := none,
              zoom_pct := none, to_tensor := none, df := [()],
              train_ids := [0], val_ids := [], test_ids := [] },
    pixel_classifier := none, debug := true }

/-- An empty graph dataset over no rows, used by the constructor
witness. -/
def exampleGraphDataset0 : Jarvis2dSTEMGraphDataset Unit :=
  { base := { px_scale := 1, label_mode := "delta",
              rotation_degrees := none, shift_angstrom := none,
              zoom_pct := none, to_tensor := none, df := [],
              train_ids := [], val_ids := [], test_ids := [] },
    pixel_classifier := none, debug := false }

end Atomvision

namespace Atomvision

/-! ## Helper theorems about the float model -/

theorem bitLenAux_pred_le (fuel : ℕ) : ∀ n : ℕ, bitLenAux fuel n ≠ 0 →
    2 ^ (bitLenAux fuel n - 1) ≤ n := by
  induction fuel with
  | zero => intro n h; simp [bitLenAux] at h
  | succ f ih =>
    intro n h
    by_cases hn : n = 0
    · simp [bitLenAux, hn] at h
    · simp only [bitLenAux, if_neg hn]
      by_cases hz : bitLenAux f (n / 2) = 0
      · simpa [hz] using Nat.one_le_iff_ne_zero.mpr hn
      · have ihh := ih (n / 2) hz
        have h1 : 1 ≤ bitLenAux f (n / 2) := Nat.one_le_iff_ne_zero.mpr hz
        have : 2 ^ bitLenAux f (n / 2) ≤ n := by
          calc 2 ^ bitLenAux f (n / 2)
              = 2 * 2 ^ (bitLenAux f (n / 2) - 1) := by
                rw [← pow_succ']
                congr 1
                omega
            _ ≤ 2 * (n / 2) := by omega
            _ ≤ n := Nat.mul_div_le n 2
        simpa using this

theorem roundNE_le (P s : ℕ) : roundNE P s ≤ P / 2 ^ s + 1 := by
  unfold roundNE
  split <;> [omega; skip]
  split <;> [omega; skip]
  split <;> omega

/-- The rounded 53-bit significand times `2 ^ s` exceeds the exact
product by at most one unit in the last place. -/
theorem roundNE_mul_le (P s : ℕ) : roundNE P s * 2 ^ s ≤ P + 2 ^ s := by
  have h := roundNE_le P s
  calc roundNE P s * 2 ^ s ≤ (P / 2 ^ s + 1) * 2 ^ s := by
        exact Nat.mul_le_mul_right _ h
    _ = P / 2 ^ s * 2 ^ s + 2 ^ s := by ring
    _ ≤ P + 2 ^ s := by
        have := Nat.div_mul_le_self P (2 ^ s)
        omega

theorem two_pow_shift_le (P : ℕ) (hP : P ≠ 0) :
    2 ^ (bitLen P - 53) ≤ P := by
  by_cases h : bitLen P - 53 = 0
  · rw [h]; exact Nat.one_le_iff_ne_zero.mpr hP
  · have hb : bitLen P ≠ 0 := by omega
    have hle := bitLenAux_pred_le 256 P hb
    calc 2 ^ (bitLen P - 53) ≤ 2 ^ (bitLen P - 1) := by
          exact Nat.pow_le_pow_right (by omega) (by omega)
      _ ≤ P := hle

/-- Even after the float rounding, validation and test together take at
most the whole dataset: `n_val N + n_test N ≤ N`. -/
theorem n_val_add_n_test_le (N : ℕ) : n_val N + n_test N ≤ N := by
  have hsame : n_test N = n_val N := rfl
  rw [hsame]
  have key : intMulTenth N ≤ N / 2 := by
    unfold intMulTenth
    by_cases hP : N * floatTenthNum = 0
    · have hN0 : N = 0 ∨ N = 0 ∨ floatTenthNum = 0 := by
        rcases Nat.mul_eq_zero.mp hP with h | h
        · exact Or.inl h
        · exact Or.inr (Or.inr h)
      have : N * floatTenthNum = 0 := hP
      simp only [this]
      simp [roundNE]
    · have hshift := two_pow_shift_le (N * floatTenthNum) hP
      have hmul := roundNE_mul_le (N * floatTenthNum) (bitLen (N * floatTenthNum) - 53)
      have h2P : roundNE (N * floatTenthNum) (bitLen (N * floatTenthNum) - 53) *
          2 ^ (bitLen (N * floatTenthNum) - 53) ≤ 2 * (N * floatTenthNum) := by omega
      have hdiv : roundNE (N * floatTenthNum) (bitLen (N * floatTenthNum) - 53) *
          2 ^ (bitLen (N * floatTenthNum) - 53) / 2 ^ 55
            ≤ 2 * (N * floatTenthNum) / 2 ^ 55 :=
        Nat.div_le_div_right h2P
      have hbound : 2 * (N * floatTenthNum) / 2 ^ 55 ≤ N / 2 := by
        have hm : 2 * (N * floatTenthNum) ≤ N * (2 ^ 54) := by
          have : 2 * floatTenthNum ≤ 2 ^ 54 := by norm_num [floatTenthNum]
          calc 2 * (N * floatTenthNum) = N * (2 * floatTenthNum) := by ring
            _ ≤ N * 2 ^ 54 := Nat.mul_le_mul_left _ this
        calc 2 * (N * floatTenthNum) / 2 ^ 55 ≤ N * 2 ^ 54 / 2 ^ 55 :=
              Nat.div_le_div_right hm
          _ = N / 2 := by
              rw [show (2 : ℕ) ^ 55 = 2 ^ 54 * 2 by norm_num,
                show N * 2 ^ 54 = 2 ^ 54 * N by ring]
              exact Nat.mul_div_mul_left N 2 (by positivity)
      exact le_trans hdiv hbound
  have : n_val N ≤ N / 2 := key
  omega

/-- The three slices of `split_dataset`, concatenated, rebuild the
permutation exactly. -/
theorem split_dataset_append (N : ℕ) (shuf : List ℕ) (h : shuf.length = N) :
    (split_dataset N shuf).1 ++ (split_dataset N shuf).2.1 ++
      (split_dataset N shuf).2.2 = shuf := by
  have hle := n_val_add_n_test_le N
  have htr : n_train N + n_val N + n_test N = N := by
    unfold n_train; omega
  have htest : (shuf.drop (n_train N + n_val N)).take (n_test N) =
      shuf.drop (n_train N + n_val N) := by
    apply List.take_of_length_le
    rw [List.length_drop, h]
    omega
  simp only [split_dataset, htest]
  rw [← List.drop_drop, List.append_assoc]
  rw [List.take_append_drop (n_val N) (shuf.drop (n_train N)),
    List.take_append_drop]

theorem split_dataset_len_train (N : ℕ) (shuf : List ℕ) (h : shuf.length = N) :
    (split_dataset N shuf).1.length = n_train N := by
  have hle := n_val_add_n_test_le N
  simp only [split_dataset, List.length_take, h]
  unfold n_train
  omega

theorem split_dataset_len_val (N : ℕ) (shuf : List ℕ) (h : shuf.length = N) :
    (split_dataset N shuf).2.1.length = n_val N := by
  have hle := n_val_add_n_test_le N
  simp only [split_dataset, List.length_take, List.length_drop, h]
  unfold n_train
  omega

theorem split_dataset_len_test (N : ℕ) (shuf : List ℕ) (h : shuf.length = N) :
    (split_dataset N shuf).2.2.length = n_test N := by
  have hle := n_val_add_n_test_le N
  simp only [split_dataset, List.length_take, List.length_drop, h]
  unfold n_train
  omega

/-- Claim C2 (amended).  For every `N ≥ 1` and every permutation `shuf`
of `{0,...,N-1}` (which the seeded `torch.randperm(N)` supplies),
`split_dataset` returns three pairwise-disjoint blocks whose sizes are
`N - (n_val N + n_test N)`, `n_val N` and `n_test N`, whose union is
exactly `{0,...,N-1}`, and which depend only on `(N, shuf)` — so
repeated constructions with the same size and seed give the identical
partition.  Here `n_val N = n_test N = int(N * 0.1)` evaluated in
binary64 floating point; this equals `⌊0.1 N⌋` for every realistic
dataset size but not for every `N ≥ 1` (see the counterexample). -/
theorem split_dataset_partition (N : ℕ) (shuf : List ℕ) (hN : 1 ≤ N)
    (hperm : shuf.Perm (List.range N)) :
    (split_dataset N shuf).1.length = N - (n_val N + n_test N) ∧
    (split_dataset N shuf).2.1.length = n_val N ∧
    (split_dataset N shuf).2.2.length = n_test N ∧
    ((split_dataset N shuf).1 ++ (split_dataset N shuf).2.1 ++
      (split_dataset N shuf).2.2).Perm (List.range N) ∧
    (split_dataset N shuf).1.Disjoint (split_dataset N shuf).2.1 ∧
    (split_dataset N shuf).1.Disjoint (split_dataset N shuf).2.2 ∧
    (split_dataset N shuf).2.1.Disjoint (split_dataset N shuf).2.2 ∧
    ∀ shuf₂, shuf₂ = shuf → split_dataset N shuf₂ = split_dataset N shuf := by
  have hlen : shuf.length = N := by
    simpa using hperm.length_eq
  have happ := split_dataset_append N shuf hlen
  have hnd : shuf.Nodup := hperm.nodup_iff.mpr (List.nodup_range N)
  have hndapp : ((split_dataset N shuf).1 ++ (split_dataset N shuf).2.1 ++
      (split_dataset N shuf).2.2).Nodup := by rw [happ]; exact hnd
  rw [List.append_assoc, List.nodup_append] at hndapp
  obtain ⟨-, hnd2, hdisj⟩ := hndapp
  rw [List.nodup_append] at hnd2
  rw [List.disjoint_append_right] at hdisj
  refine ⟨?_, split_dataset_len_val N shuf hlen, split_dataset_len_test N shuf hlen,
    ?_, hdisj.1, hdisj.2, hnd2.2.2, fun shuf₂ h2 => by rw [h2]⟩
  · rw [split_dataset_len_train N shuf hlen]; rfl
  · rw [happ]; exact hperm

set_option maxRecDepth 10000 in
/-- Claim C2 counterexample.  At `N = 6917659252315359` the Python
value `n_val = int(N * 0.1)` (binary64 arithmetic) is
`691765925231536`, one more than `⌊0.1 N⌋ = 691765925231535`: the
claimed size `|val| = ⌊0.1 N⌋` fails for this dataset size. -/
theorem split_val_size_float_counterexample :
    n_val 6917659252315359 = 691765925231536 ∧
    ¬ (691765925231536 = 6917659252315359 / 10) := by
  constructor
  · decide
  · decide

/-- Witness for `split_dataset_partition` at `N = 23` with the reversed
range as the permutation. -/
theorem split_dataset_partition_witness :
    (split_dataset 23 (List.range 23).reverse).1.length =
      23 - (n_val 23 + n_test 23) ∧
    (split_dataset 23 (List.range 23).reverse).2.1.length = n_val 23 ∧
    (split_dataset 23 (List.range 23).reverse).2.2.length = n_test 23 ∧
    ((split_dataset 23 (List.range 23).reverse).1 ++
      (split_dataset 23 (List.range 23).reverse).2.1 ++
      (split_dataset 23 (List.range 23).reverse).2.2).Perm (List.range 23) ∧
    (split_dataset 23 (List.range 23).reverse).1.Disjoint
      (split_dataset 23 (List.range 23).reverse).2.1 ∧
    (split_dataset 23 (List.range 23).reverse).1.Disjoint
      (split_dataset 23 (List.range 23).reverse).2.2 ∧
    (split_dataset 23 (List.range 23).reverse).2.1.Disjoint
      (split_dataset 23 (List.range 23).reverse).2.2 ∧
    ∀ shuf₂, shuf₂ = (List.range 23).reverse →
      split_dataset 23 shuf₂ = split_dataset 23 (List.range 23).reverse :=
  split_dataset_partition 23 (List.range 23).reverse (by decide)
    (List.reverse_perm (List.range 23))

/-! ## Grid read/write lemmas -/

theorem gget_zeroGrid (H W : ℕ) (p : Pix) : gget (zeroGrid H W) 0 p = 0 := by
  simp only [gget, zeroGrid, List.getD_eq_getElem?_getD, List.getElem?_replicate]
  by_cases h : p.1 < H
  · simp only [if_pos h, Option.getD_some, List.getElem?_replicate]
    by_cases h2 : p.2 < W <;> simp [h2]
  · simp [if_neg h]

theorem zeroGrid_wf (H W : ℕ) : GridWF (zeroGrid H W) H W := by
  constructor
  · simp [zeroGrid]
  · intro row hrow
    rw [List.eq_of_mem_replicate hrow]
    simp

theorem getD_mem {α : Type} (l : List α) (i : ℕ) (d : α) (h : i < l.length) :
    l.getD i d ∈ l := by
  rw [List.getD_eq_getElem?_getD, List.getElem?_eq_getElem h]
  exact List.getElem_mem h

theorem gset_wf {α : Type} (g : Grid α) (p : Pix) (v : α) (H W : ℕ)
    (hwf : GridWF g H W) : GridWF (gset g p v) H W := by
  obtain ⟨hlen, hrows⟩ := hwf
  refine ⟨by simpa [gset] using hlen, ?_⟩
  intro row hrow
  unfold gset at hrow
  by_cases hp : p.1 < g.length
  · rcases List.mem_or_eq_of_mem_set hrow with hmem | heq
    · exact hrows row hmem
    · subst heq
      rw [List.length_set]
      exact hrows _ (getD_mem g p.1 [] hp)
  · rw [List.set_eq_of_length_le (by omega)] at hrow
    exact hrows row hrow

theorem gget_gset_self {α : Type} (g : Grid α) (d : α) (p : Pix) (v : α)
    (H W : ℕ) (hwf : GridWF g H W) (h1 : p.1 < H) (h2 : p.2 < W) :
    gget (gset g p v) d p = v := by
  obtain ⟨hlen, hrows⟩ := hwf
  have hp1 : p.1 < g.length := by omega
  have hrowlen : (g.getD p.1 []).length = W := hrows _ (getD_mem g p.1 [] hp1)
  simp only [gget, gset, List.getD_eq_getElem?_getD]
  rw [List.getElem?_set_self hp1, Option.getD_some, List.getElem?_set_self,
    Option.getD_some]
  rw [List.getD_eq_getElem?_getD] at hrowlen
  omega

theorem gget_gset_ne {α : Type} (g : Grid α) (d : α) (p q : Pix) (v : α)
    (h : q ≠ p) : gget (gset g p v) d q = gget g d q := by
  simp only [gget, gset, List.getD_eq_getElem?_getD]
  by_cases h1 : p.1 = q.1
  · have h2 : p.2 ≠ q.2 := by
      intro h2
      exact h (Prod.ext h1.symm h2.symm)
    rw [List.getElem?_set, if_pos h1]
    by_cases hp : p.1 < g.length
    · rw [if_pos hp, Option.getD_some, List.getElem?_set_ne h2, h1]
    · rw [if_neg hp, ← h1,
        show g[p.1]? = none from List.getElem?_eq_none (by omega)]
  · rw [List.getElem?_set_ne h1]

/-! ## Disk painting lemmas -/

theorem mem_diskPixels (center : ℚ × ℚ) (radius : ℚ) (shape : ℕ × ℕ)
    (p : Pix) : p ∈ diskPixels center radius shape ↔
      inDisk center radius p = true ∧ p.1 < shape.1 ∧ p.2 < shape.2 := by
  rcases p with ⟨r, c⟩
  simp only [diskPixels, List.mem_flatMap, List.mem_filterMap, List.mem_range]
  constructor
  · rintro ⟨r', hr', c', hc', hsome⟩
    by_cases hd : inDisk center radius (r', c') = true
    · simp only [if_pos hd, Option.some.injEq, Prod.mk.injEq] at hsome
      obtain ⟨rfl, rfl⟩ := hsome
      exact ⟨hd, hr', hc'⟩
    · rw [if_neg hd] at hsome
      exact absurd hsome (by simp)
  · rintro ⟨hd, hr, hc⟩
    exact ⟨r, hr, c, hc, by rw [if_pos hd]⟩

theorem paintDisk_wf (g : Grid ℕ) (pix : List Pix) (n : ℕ) (H W : ℕ)
    (hwf : GridWF g H W) : GridWF (paintDisk g pix n) H W := by
  induction pix generalizing g with
  | nil => exact hwf
  | cons q rest ih => exact ih _ (gset_wf g q n H W hwf)

theorem gget_paintDisk (pix : List Pix) (g : Grid ℕ) (n : ℕ) (p : Pix)
    (H W : ℕ) (hwf : GridWF g H W) (h1 : p.1 < H) (h2 : p.2 < W) :
    gget (paintDisk g pix n) 0 p = if p ∈ pix then n else gget g 0 p := by
  induction pix generalizing g with
  | nil => simp [paintDisk]
  | cons q rest ih =>
    have hstep : paintDisk g (q :: rest) n = paintDisk (gset g q n) rest n := rfl
    rw [hstep, ih _ (gset_wf g q n H W hwf)]
    by_cases hmem : p ∈ rest
    · simp [hmem]
    · by_cases heq : p = q
      · subst heq
        rw [if_neg hmem, gget_gset_self g 0 p n H W hwf h1 h2,
          if_pos (List.mem_cons_self p rest)]
      · rw [if_neg hmem, gget_gset_ne g 0 q p n heq]
        have : ¬ p ∈ q :: rest := by
          simp [heq, hmem]
        rw [if_neg this]

theorem paintAtoms_wf (shape : ℕ × ℕ) (radii : ℕ → Option ℚ) (px_scale : ℚ)
    (atoms : List ((ℚ × ℚ) × ℕ)) (g : Grid ℕ) (H W : ℕ)
    (hwf : GridWF g H W) :
    GridWF (paintAtoms shape radii px_scale atoms g) H W := by
  induction atoms generalizing g with
  | nil => exact hwf
  | cons a rest ih =>
    show GridWF (paintAtoms shape radii px_scale rest _) H W
    rcases hra : radii a.2 with - | rad
    · simpa [hra] using ih g hwf
    · simpa [hra] using ih _ (paintDisk_wf g _ a.2 H W hwf)

/-- Pixel-level description of the painting fold: each pixel ends up
labelled by the last atom (in input order) whose disk contains it. -/
theorem gget_paintAtoms (shape : ℕ × ℕ) (radii : ℕ → Option ℚ)
    (px_scale : ℚ) (atoms : List ((ℚ × ℚ) × ℕ)) (g : Grid ℕ) (p : Pix)
    (H W : ℕ) (hwf : GridWF g H W) (h1 : p.1 < H) (h2 : p.2 < W) :
    gget (paintAtoms shape radii px_scale atoms g) 0 p =
      (match lastCover shape radii px_scale atoms p with
        | some n => n
        | none => gget g 0 p) := by
  induction atoms generalizing g with
  | nil => simp [paintAtoms, lastCover]
  | cons a rest ih =>
    have hstep : paintAtoms shape radii px_scale (a :: rest) g =
        paintAtoms shape radii px_scale rest
          (match radii a.2 with
            | none => g
            | some rad =>
                paintDisk g (diskPixels a.1 (0.5 * rad / px_scale) shape) a.2) :=
      rfl
    rcases hra : radii a.2 with - | rad
    · have hcov : covers shape radii px_scale a p = false := by
        simp [covers, hra]
      rw [hstep, hra, ih g hwf]
      simp [lastCover, List.filter_cons, hcov]
    · have hwf' := paintDisk_wf g (diskPixels a.1 (0.5 * rad / px_scale) shape)
        a.2 H W hwf
      rw [hstep, hra, ih _ hwf']
      by_cases hcov : covers shape radii px_scale a p = true
      · rcases hrest : List.filter
            (fun a => covers shape radii px_scale a p) rest with - | ⟨b, l⟩
        · have hmem : p ∈ diskPixels a.1 (0.5 * rad / px_scale) shape := by
            simpa [covers, hra] using hcov
          simp only [lastCover, List.filter_cons, hcov, if_true, hrest]
          simp only [List.getLast?_nil, List.getLast?_singleton,
            Option.map_none, Option.map_some]
          rw [gget_paintDisk _ g a.2 p H W hwf h1 h2, if_pos hmem]
          rfl
        · simp only [lastCover, List.filter_cons, hcov, if_true, hrest]
          rw [List.getLast?_cons_cons]
          obtain ⟨x, hx⟩ : ∃ x, (b :: l).getLast? = some x :=
            Option.isSome_iff_exists.mp (List.getLast?_isSome.mpr (by simp))
          simp [hx]
      · have hcov' : covers shape radii px_scale a p = false := by
          simpa using hcov
        have hnmem : ¬ p ∈ diskPixels a.1 (0.5 * rad / px_scale) shape := by
          intro hm
          exact absurd (by simp [covers, hra, hm]) hcov
        simp only [lastCover, List.filter_cons, hcov', Bool.false_eq_true,
          if_false]
        cases hopt : ((List.filter (fun a => covers shape radii px_scale a p)
            rest).getLast?).map (fun a => a.2) with
        | none =>
          simp only [hopt]
          rw [gget_paintDisk _ g a.2 p H W hwf h1 h2, if_neg hnmem]
        | some n => simp only [hopt]

/-- When every zipped species is in the table, the effectful fold of
`atomic_radius_mask` succeeds and equals the pure painting fold. -/
theorem foldlM_paintAtom_ok (shape : ℕ × ℕ) (radii : ℕ → Option ℚ)
    (px_scale : ℚ) (atoms : List ((ℚ × ℚ) × ℕ)) (g : Grid ℕ)
    (h : ∀ a ∈ atoms, (radii a.2).isSome = true) :
    atoms.foldlM (paintAtom shape radii px_scale) g =
      .ok (paintAtoms shape radii px_scale atoms g) := by
  induction atoms generalizing g with
  | nil => rfl
  | cons a rest ih =>
    obtain ⟨rad, hrad⟩ := Option.isSome_iff_exists.mp
      (h a (List.mem_cons_self a rest))
    rw [List.foldlM_cons]
    have hstep : paintAtom shape radii px_scale g a =
        .ok (paintDisk g (diskPixels a.1 (0.5 * rad / px_scale) shape) a.2) := by
      simp [paintAtom, hrad]
    rw [hstep]
    show rest.foldlM (paintAtom shape radii px_scale) _ = _
    rw [ih _ fun b hb => h b (List.mem_cons_of_mem a hb)]
    have hunfold : paintAtoms shape radii px_scale (a :: rest) g =
        paintAtoms shape radii px_scale rest
          (paintDisk g (diskPixels a.1 (0.5 * rad / px_scale) shape) a.2) := by
      show paintAtoms shape radii px_scale rest
          (match radii a.2 with
            | none => g
            | some rad =>
                paintDisk g (diskPixels a.1 (0.5 * rad / px_scale) shape)
                  a.2) = _
      rw [hrad]
    rw [hunfold]

/-- When some zipped species is missing from the table, the fold stops
with `unknownSpecies` (Python's `KeyError`). -/
theorem foldlM_paintAtom_err (shape : ℕ × ℕ) (radii : ℕ → Option ℚ)
    (px_scale : ℚ) (atoms : List ((ℚ × ℚ) × ℕ)) (g : Grid ℕ)
    (h : ∃ a ∈ atoms, radii a.2 = none) :
    ∃ z, radii z = none ∧ z ∈ atoms.map Prod.snd ∧
      atoms.foldlM (paintAtom shape radii px_scale) g =
        .error (.unknownSpecies z) := by
  induction atoms generalizing g with
  | nil => obtain ⟨a, ha, -⟩ := h; exact absurd ha (List.not_mem_nil a)
  | cons a rest ih =>
    rcases hra : radii a.2 with - | rad
    · refine ⟨a.2, hra, by simp, ?_⟩
      rw [List.foldlM_cons]
      have hstep : paintAtom shape radii px_scale g a =
          .error (.unknownSpecies a.2) := by
        simp [paintAtom, hra]
      rw [hstep]
      rfl
    · have hrest : ∃ b ∈ rest, radii b.2 = none := by
        obtain ⟨b, hb, hbn⟩ := h
        rcases List.mem_cons.mp hb with rfl | hbr
        · rw [hra] at hbn; exact absurd hbn (by simp)
        · exact ⟨b, hbr, hbn⟩
      obtain ⟨z, hz1, hz2, hz3⟩ := ih
        (paintDisk g (diskPixels a.1 (0.5 * rad / px_scale) shape) a.2) hrest
      refine ⟨z, hz1, List.mem_cons_of_mem _ hz2, ?_⟩
      rw [List.foldlM_cons]
      have hstep : paintAtom shape radii px_scale g a =
          .ok (paintDisk g (diskPixels a.1 (0.5 * rad / px_scale) shape)
            a.2) := by
        simp [paintAtom, hra]
      rw [hstep]
      exact hz3

/-- Successful runs of `atomic_radius_mask` are the pure painting fold:
each in-bounds pixel holds the atomic number of the last atom whose
disk covers it, or 0. -/
theorem atomic_radius_mask_ok_char (shape : ℕ × ℕ) (X : List (ℚ × ℚ))
    (Ns : List ℕ) (radii : ℕ → Option ℚ) (px_scale : ℚ) (m : Grid ℕ)
    (hok : atomic_radius_mask shape X Ns radii px_scale = .ok m) (p : Pix)
    (h1 : p.1 < shape.1) (h2 : p.2 < shape.2) :
    gget m 0 p =
      (match lastCover shape radii px_scale (X.zip Ns) p with
        | some n => n
        | none => 0) := by
  by_cases hall : ∀ a ∈ X.zip Ns, (radii a.2).isSome = true
  · unfold atomic_radius_mask at hok
    rw [foldlM_paintAtom_ok shape radii px_scale (X.zip Ns) _ hall] at hok
    have hm : paintAtoms shape radii px_scale (X.zip Ns)
        (zeroGrid shape.1 shape.2) = m := by
      injection hok
    rw [← hm, gget_paintAtoms shape radii px_scale (X.zip Ns) _ p shape.1
      shape.2 (zeroGrid_wf shape.1 shape.2) h1 h2]
    cases hl : lastCover shape radii px_scale (X.zip Ns) p <;>
      simp [hl, gget_zeroGrid]
  · push_neg at hall
    obtain ⟨a, ha, hnone⟩ := hall
    have hanone : radii a.2 = none := by
      cases h' : radii a.2
      · rfl
      · exact absurd (by simp [h']) hnone
    obtain ⟨z, -, -, herr⟩ := foldlM_paintAtom_err shape radii px_scale
      (X.zip Ns) (zeroGrid shape.1 shape.2) ⟨a, ha, hanone⟩
    unfold atomic_radius_mask at hok
    rw [herr] at hok
    exact absurd hok (by simp)

/-- Claim C6.  `atomic_radius_mask` is order-sensitive with
last-write-wins semantics: on every successful run each in-bounds pixel
holds the atomic number of the last atom in input order whose painted
disk contains it (0 when none does); in particular feeding the same
two overlapping atoms in reversed order changes an overlapping pixel's
label to the second-listed atom's number in either order. -/
theorem atomic_radius_mask_last_write_wins :
    (∀ (shape : ℕ × ℕ) (X : List (ℚ × ℚ)) (Ns : List ℕ)
      (radii : ℕ → Option ℚ) (px_scale : ℚ) (m : Grid ℕ),
      atomic_radius_mask shape X Ns radii px_scale = .ok m →
      ∀ p : Pix, p.1 < shape.1 → p.2 < shape.2 →
        gget m 0 p =
          (match lastCover shape radii px_scale (X.zip Ns) p with
            | some n => n
            | none => 0)) ∧
    (∀ (shape : ℕ × ℕ) (radii : ℕ → Option ℚ) (px_scale : ℚ)
      (x₁ x₂ : ℚ × ℚ) (n₁ n₂ : ℕ) (m₁ m₂ : Grid ℕ) (p : Pix),
      p.1 < shape.1 → p.2 < shape.2 →
      covers shape radii px_scale (x₁, n₁) p = true →
      covers shape radii px_scale (x₂, n₂) p = true →
      atomic_radius_mask shape [x₁, x₂] [n₁, n₂] radii px_scale = .ok m₁ →
      atomic_radius_mask shape [x₂, x₁] [n₂, n₁] radii px_scale = .ok m₂ →
      gget m₁ 0 p = n₂ ∧ gget m₂ 0 p = n₁) := by
  constructor
  · intro shape X Ns radii px_scale m hok p h1 h2
    exact atomic_radius_mask_ok_char shape X Ns radii px_scale m hok p h1 h2
  · intro shape radii px_scale x₁ x₂ n₁ n₂ m₁ m₂ p h1 h2 hc1 hc2 hok₁ hok₂
    constructor
    · rw [atomic_radius_mask_ok_char shape [x₁, x₂] [n₁, n₂] radii px_scale
        m₁ hok₁ p h1 h2]
      simp [lastCover, List.zip, List.filter_cons, hc1, hc2]
    · rw [atomic_radius_mask_ok_char shape [x₂, x₁] [n₂, n₁] radii px_scale
        m₂ hok₂ p h1 h2]
      simp [lastCover, List.zip, List.filter_cons, hc1, hc2]

/-- Claim C7.  If some atomic number of the (zipped) input is absent
from the species-radius table, `atomic_radius_mask` fails with
`unknownSpecies` (Python's `KeyError`, no silent skip), and conversely;
when every atomic number is present it succeeds, and every in-bounds
pixel is labelled according to the painted disks of pixel radius
`0.5 * radius(Z) / px_scale` clipped to the image bounds (the disks
that `covers` and `lastCover` describe). -/
theorem atomic_radius_mask_unknown_species (shape : ℕ × ℕ)
    (X : List (ℚ × ℚ)) (Ns : List ℕ) (radii : ℕ → Option ℚ)
    (px_scale : ℚ) (hlen : X.length = Ns.length) :
    ((∃ n ∈ Ns, radii n = none) ↔
      ∃ z, atomic_radius_mask shape X Ns radii px_scale =
        .error (.unknownSpecies z)) ∧
    ((∀ n ∈ Ns, (radii n).isSome = true) →
      ∃ m, atomic_radius_mask shape X Ns radii px_scale = .ok m ∧
        ∀ p : Pix, p.1 < shape.1 → p.2 < shape.2 →
          gget m 0 p =
            (match lastCover shape radii px_scale (X.zip Ns) p with
              | some n => n
              | none => 0)) := by
  have hsnd : (X.zip Ns).map Prod.snd = Ns :=
    List.map_snd_zip X Ns (le_of_eq hlen.symm)
  constructor
  · constructor
    · rintro ⟨n, hn, hnone⟩
      obtain ⟨a, ha, hna⟩ : ∃ a ∈ X.zip Ns, a.2 = n := by
        have : n ∈ (X.zip Ns).map Prod.snd := hsnd.symm ▸ hn
        simpa using this
      obtain ⟨z, -, -, herr⟩ := foldlM_paintAtom_err shape radii px_scale
        (X.zip Ns) (zeroGrid shape.1 shape.2) ⟨a, ha, by rw [hna]; exact hnone⟩
      exact ⟨z, herr⟩
    · rintro ⟨z, herr⟩
      by_contra hno
      push_neg at hno
      have hall : ∀ a ∈ X.zip Ns, (radii a.2).isSome = true := by
        intro a ha
        have h2 : a.2 ∈ Ns := hsnd ▸ List.mem_map_of_mem Prod.snd ha
        cases h' : radii a.2
        · exact absurd h' (hno a.2 h2)
        · simp
      unfold atomic_radius_mask at herr
      rw [foldlM_paintAtom_ok shape radii px_scale (X.zip Ns) _ hall] at herr
      exact absurd herr (by simp)
  · intro hall
    have hall' : ∀ a ∈ X.zip Ns, (radii a.2).isSome = true := by
      intro a ha
      exact hall a.2 (hsnd ▸ List.mem_map_of_mem Prod.snd ha)
    refine ⟨paintAtoms shape radii px_scale (X.zip Ns)
      (zeroGrid shape.1 shape.2), ?_, ?_⟩
    · unfold atomic_radius_mask
      exact foldlM_paintAtom_ok shape radii px_scale (X.zip Ns) _ hall'
    · intro p h1 h2
      rw [gget_paintAtoms shape radii px_scale (X.zip Ns) _ p shape.1 shape.2
        (zeroGrid_wf shape.1 shape.2) h1 h2]
      cases hl : lastCover shape radii px_scale (X.zip Ns) p <;>
        simp [hl, gget_zeroGrid]

/-- Witness for `atomic_radius_mask_last_write_wins`: two overlapping
atoms (species 1 and 2, radius 3, pixel scale 1) on a 3 × 3 grid; the
shared pixel (1, 1) is labelled 2 in one order and 1 in the other. -/
theorem atomic_radius_mask_last_write_wins_witness :
    ∃ m₁ m₂ : Grid ℕ,
      atomic_radius_mask (3, 3) [(1, 1), (1, 2)] [1, 2] exampleRadii 1 =
        .ok m₁ ∧
      atomic_radius_mask (3, 3) [(1, 2), (1, 1)] [2, 1] exampleRadii 1 =
        .ok m₂ ∧
      gget m₁ 0 (1, 1) = 2 ∧ gget m₂ 0 (1, 1) = 1 := by
  have he₁ : isErr (atomic_radius_mask (3, 3) [(1, 1), (1, 2)] [1, 2]
      exampleRadii 1) = false := by with_unfolding_all decide
  have he₂ : isErr (atomic_radius_mask (3, 3) [(1, 2), (1, 1)] [2, 1]
      exampleRadii 1) = false := by with_unfolding_all decide
  rcases hok₁ : atomic_radius_mask (3, 3) [(1, 1), (1, 2)] [1, 2]
      exampleRadii 1 with e₁ | m₁
  · rw [hok₁] at he₁; exact absurd he₁ (by simp [isErr])
  rcases hok₂ : atomic_radius_mask (3, 3) [(1, 2), (1, 1)] [2, 1]
      exampleRadii 1 with e₂ | m₂
  · rw [hok₂] at he₂; exact absurd he₂ (by simp [isErr])
  have h := (atomic_radius_mask_last_write_wins).2 (3, 3) exampleRadii 1
    (1, 1) (1, 2) 1 2 m₁ m₂ (1, 1) (by decide) (by decide)
    (by with_unfolding_all decide) (by with_unfolding_all decide) hok₁ hok₂
  exact ⟨m₁, m₂, rfl, rfl, h.1, h.2⟩

/-- Witness for `atomic_radius_mask_unknown_species`: species 5 is
absent from `exampleRadii`, so the two-atom call fails with
`unknownSpecies`. -/
theorem atomic_radius_mask_unknown_species_witness :
    ∃ z, atomic_radius_mask (2, 2) [(0, 0), (1, 1)] [1, 5] exampleRadii 1 =
      .error (.unknownSpecies z) :=
  (atomic_radius_mask_unknown_species (2, 2) [(0, 0), (1, 1)] [1, 5]
    exampleRadii 1 (by decide)).1.mp ⟨5, by decide, by decide⟩

/-! ## Connected-component lemmas -/

theorem mem_fgPixels (mask : Grid ℕ) (p : Pix) :
    p ∈ fgPixels mask ↔ p.1 < mask.length ∧
      p.2 < (mask.getD p.1 []).length ∧ gget mask 0 p ≠ 0 := by
  rcases p with ⟨r, c⟩
  simp only [fgPixels, List.mem_flatMap, List.mem_filterMap, List.mem_range]
  constructor
  · rintro ⟨r', hr', c', hc', hsome⟩
    by_cases hd : gget mask 0 (r', c') ≠ 0
    · simp only [if_pos hd, Option.some.injEq, Prod.mk.injEq] at hsome
      obtain ⟨rfl, rfl⟩ := hsome
      exact ⟨hr', hc', hd⟩
    · rw [if_neg hd] at hsome
      exact absurd hsome (by simp)
  · rintro ⟨hr, hc, hd⟩
    exact ⟨r, hr, c, hc, by rw [if_pos hd]⟩

theorem gget_allzero (mask : Grid ℕ) (p : Pix)
    (h : ∀ row ∈ mask, ∀ v ∈ row, v = 0) : gget mask 0 p = 0 := by
  unfold gget
  by_cases hp : p.1 < mask.length
  · have hrow : mask.getD p.1 [] ∈ mask := getD_mem _ _ _ hp
    by_cases hc : p.2 < (mask.getD p.1 []).length
    · exact h _ hrow _ (getD_mem _ _ _ hc)
    · rw [List.getD_eq_getElem?_getD, List.getElem?_eq_none (by omega)]
      rfl
  · have hnil : mask.getD p.1 [] = [] := by
      rw [List.getD_eq_getElem?_getD, List.getElem?_eq_none (by omega)]
      rfl
    rw [hnil]
    rfl

/-- Claim C4.  An all-background mask yields a graph with zero nodes
and zero edges (and an empty property table); no error is raised. -/
theorem atom_mask_to_graph_empty_mask (mask : Grid ℕ) (img : Grid ℚ)
    (px cut : ℚ) (h : ∀ row ∈ mask, ∀ v ∈ row, v = 0) :
    (atom_mask_to_graph mask img px cut).1.nodes = [] ∧
    (atom_mask_to_graph mask img px cut).1.edges = [] ∧
    (atom_mask_to_graph mask img px cut).2 = [] := by
  have hfg : fgPixels mask = [] := by
    rw [List.eq_nil_iff_forall_not_mem]
    intro p hp
    rw [mem_fgPixels] at hp
    exact hp.2.2 (gget_allzero mask p h)
  have hcomp : components mask = [] := by
    unfold components
    rw [hfg]
    rfl
  refine ⟨?_, ?_, ?_⟩ <;>
    simp [atom_mask_to_graph, hcomp, regionprops_table, query_pairs]

/-- Witness for `atom_mask_to_graph_empty_mask` on a 2 × 2 all-zero
mask with a nonzero image. -/
theorem atom_mask_to_graph_empty_mask_witness :
    (atom_mask_to_graph [[0, 0], [0, 0]] [[5, 1], [2, 3]]
      (1 / 10) 4).1.nodes = [] ∧
    (atom_mask_to_graph [[0, 0], [0, 0]] [[5, 1], [2, 3]]
      (1 / 10) 4).1.edges = [] ∧
    (atom_mask_to_graph [[0, 0], [0, 0]] [[5, 1], [2, 3]]
      (1 / 10) 4).2 = [] :=
  atom_mask_to_graph_empty_mask [[0, 0], [0, 0]] [[5, 1], [2, 3]]
    (1 / 10) 4 (by decide)

theorem floodAux_subsets (mask : Grid ℕ) (fuel : ℕ) :
    ∀ comp rest : List Pix,
      (∀ x ∈ (floodAux mask fuel comp rest).1, x ∈ comp ∨ x ∈ rest) ∧
      (∀ x ∈ (floodAux mask fuel comp rest).2, x ∈ rest) := by
  induction fuel with
  | zero => exact fun comp rest => ⟨fun x hx => Or.inl hx, fun x hx => hx⟩
  | succ f ih =>
    intro comp rest
    have hgrow1 : ∀ x ∈ (growComp mask comp rest).1, x ∈ rest := by
      intro x hx
      unfold growComp at hx
      rw [List.partition_eq_filter_filter] at hx
      exact (List.mem_filter.mp hx).1
    have hgrow2 : ∀ x ∈ (growComp mask comp rest).2, x ∈ rest := by
      intro x hx
      unfold growComp at hx
      rw [List.partition_eq_filter_filter] at hx
      exact (List.mem_filter.mp hx).1
    have hstep : floodAux mask (f + 1) comp rest =
        floodAux mask f (comp ++ (growComp mask comp rest).1)
          (growComp mask comp rest).2 := rfl
    obtain ⟨ih1, ih2⟩ := ih (comp ++ (growComp mask comp rest).1)
      (growComp mask comp rest).2
    rw [hstep]
    constructor
    · intro x hx
      rcases ih1 x hx with hx' | hx'
      · rcases List.mem_append.mp hx' with h | h
        · exact Or.inl h
        · exact Or.inr (hgrow1 x h)
      · exact Or.inr (hgrow2 x hx')
    · exact fun x hx => hgrow2 x (ih2 x hx)

theorem floodAux_fst_ne_nil (mask : Grid ℕ) (fuel : ℕ) :
    ∀ comp rest : List Pix, comp ≠ [] →
      (floodAux mask fuel comp rest).1 ≠ [] := by
  induction fuel with
  | zero => exact fun comp rest h => h
  | succ f ih =>
    intro comp rest h
    have hstep : floodAux mask (f + 1) comp rest =
        floodAux mask f (comp ++ (growComp mask comp rest).1)
          (growComp mask comp rest).2 := rfl
    rw [hstep]
    exact ih _ _ fun hc => h (List.append_eq_nil.mp hc).1

theorem componentsAux_mem (mask : Grid ℕ) (fuel : ℕ) :
    ∀ pix : List Pix, ∀ c ∈ componentsAux mask fuel pix,
      c ≠ [] ∧ ∀ x ∈ c, x ∈ pix := by
  induction fuel with
  | zero => intro pix c hc; exact absurd hc (List.not_mem_nil c)
  | succ f ih =>
    intro pix c hc
    cases pix with
    | nil => exact absurd hc (List.not_mem_nil c)
    | cons p rest =>
      rw [show componentsAux mask (f + 1) (p :: rest) =
        (floodAux mask rest.length [p] rest).1 ::
          componentsAux mask f (floodAux mask rest.length [p] rest).2
        from rfl] at hc
      rcases List.mem_cons.mp hc with rfl | hmem
      · refine ⟨floodAux_fst_ne_nil mask rest.length [p] rest (by simp), ?_⟩
        intro x hx
        rcases (floodAux_subsets mask rest.length [p] rest).1 x hx with h | h
        · simp only [List.mem_singleton] at h
          simp [h]
        · exact List.mem_cons_of_mem p h
      · obtain ⟨hne, hsub⟩ := ih _ c hmem
        exact ⟨hne, fun x hx => List.mem_cons_of_mem p
          ((floodAux_subsets mask rest.length [p] rest).2 x (hsub x hx))⟩

theorem components_mem (mask : Grid ℕ) :
    ∀ c ∈ components mask, c ≠ [] ∧ ∀ x ∈ c, x ∈ fgPixels mask :=
  componentsAux_mem mask (fgPixels mask).length (fgPixels mask)

/-! ## Normalized-image lemmas -/

theorem gget_grid_map {α β : Type} (f : α → β) (g : Grid α) (d : β)
    (p : Pix) : gget (g.map fun row => row.map f) d p =
      ((g.getD p.1 []).map f).getD p.2 d := by
  unfold gget
  have hrow : (List.map (fun row => List.map f row) g).getD p.1 [] =
      (g.getD p.1 []).map f := by
    rw [List.getD_eq_getElem?_getD, List.getD_eq_getElem?_getD,
      List.getElem?_map]
    cases g[p.1]? <;> simp
  rw [hrow]

theorem gget_normalizeImage_zero (img : Grid ℚ) (h : imageMax img = 0)
    (p : Pix) : gget (normalizeImage img) none p = none := by
  unfold normalizeImage
  rw [gget_grid_map, List.getD_eq_getElem?_getD, List.getElem?_map]
  cases (img.getD p.1 [])[p.2]? <;> simp [pixelDivMax, h]

theorem gget_normalizeImage (img : Grid ℚ) (p : Pix)
    (hp2 : p.2 < (img.getD p.1 []).length) :
    gget (normalizeImage img) none p =
      pixelDivMax (imageMax img) (gget img 0 p) := by
  unfold normalizeImage
  rw [gget_grid_map, List.getD_eq_getElem?_getD, List.getElem?_map]
  obtain ⟨x, hx⟩ : ∃ x, (img.getD p.1 [])[p.2]? = some x :=
    ⟨_, List.getElem?_eq_getElem hp2⟩
  rw [hx]
  show pixelDivMax (imageMax img) x = pixelDivMax (imageMax img) (gget img 0 p)
  congr 1
  unfold gget
  rw [List.getD_eq_getElem?_getD, hx]
  rfl

theorem optSum_cons_some (a : ℚ) (vs : List (Option ℚ)) :
    optSum (some a :: vs) = (optSum vs).map fun b => a + b := by
  show (match some a, optSum vs with
    | some a, some b => some (a + b)
    | _, _ => none) = _
  cases optSum vs <;> rfl

theorem optSum_cons_none (vs : List (Option ℚ)) :
    optSum (none :: vs) = none := by
  show (match (none : Option ℚ), optSum vs with
    | some a, some b => some (a + b)
    | _, _ => none) = none
  cases optSum vs <;> rfl

theorem optSum_map_div (l : List Pix) (val : Pix → ℚ) (m : ℚ) :
    optSum (l.map fun p => some (val p / m)) =
      some ((l.map val).sum / m) := by
  induction l with
  | nil =>
    simp only [List.map_nil, List.sum_nil, zero_div]
    rfl
  | cons p r ih =>
    rw [List.map_cons, optSum_cons_some, ih, List.map_cons, List.sum_cons,
      add_div]
    rfl

theorem getD_map_of_lt {α β : Type} (f : α → β) (l : List α) (k : ℕ)
    (hk : k < l.length) (d : β) (d' : α) :
    (l.map f).getD k d = f (l.getD k d') := by
  rw [List.getD_eq_getElem?_getD, List.getElem?_map,
    List.getElem?_eq_getElem hk, List.getD_eq_getElem?_getD,
    List.getElem?_eq_getElem hk]
  rfl

theorem enum_getD {α : Type} (l : List α) (k : ℕ) (hk : k < l.length)
    (d : α) : l.enum.getD k (0, d) = (k, l.getD k d) := by
  rw [List.getD_eq_getElem?_getD, List.getElem?_enum,
    List.getElem?_eq_getElem hk, List.getD_eq_getElem?_getD,
    List.getElem?_eq_getElem hk]
  rfl

/-- Claim C3 (amended).  `atom_mask_to_graph` always returns one node
per connected component.  When the intensity maximum is positive, the
intensity image is divided by its own maximum before region properties
are computed: each node's mean intensity is the region's raw intensity
sum divided by `max * area`.  When the maximum is zero, numpy's
division produces non-finite values and NO error is raised: the graph
is still returned, its intensity attributes undefined (`none`). -/
theorem atom_mask_to_graph_normalization (mask : Grid ℕ) (img : Grid ℚ)
    (px cut : ℚ) (H W : ℕ) (hm : GridWF mask H W) (hi : GridWF img H W) :
    (atom_mask_to_graph mask img px cut).1.nodes.length =
      (components mask).length ∧
    (imageMax img = 0 →
      ∀ nd ∈ (atom_mask_to_graph mask img px cut).1.nodes,
        nd.intensity = none) ∧
    (imageMax img ≠ 0 → ∀ i, i < (components mask).length →
      ((atom_mask_to_graph mask img px cut).1.nodes.getD i dN).intensity =
        some ((((components mask).getD i []).map fun p =>
            gget img 0 p).sum /
          (imageMax img * (((components mask).getD i []).length : ℚ)))) := by
  have hnodes : (atom_mask_to_graph mask img px cut).1.nodes =
      (regionprops_table (components mask) (normalizeImage img)).map
        fun row => { pos := (row.centroid1 * px, row.centroid0 * px, 0),
                     intensity := row.mean_intensity : AtomNode } := rfl
  refine ⟨?_, ?_, ?_⟩
  · rw [hnodes]
    simp [regionprops_table, List.enum_length]
  · intro h0 nd hnd
    rw [hnodes] at hnd
    obtain ⟨row, hrow, rfl⟩ := List.mem_map.mp hnd
    obtain ⟨ic, hic, rfl⟩ := List.mem_map.mp hrow
    show optMean (regionVals (normalizeImage img) ic.2) = none
    have hcm : ic.2 ∈ components mask := List.snd_mem_of_mem_enum hic
    obtain ⟨hne, -⟩ := components_mem mask ic.2 hcm
    rcases hq : ic.2 with - | ⟨q, qr⟩
    · exact absurd hq hne
    · unfold regionVals optMean
      rw [List.map_cons, gget_normalizeImage_zero img h0 q,
        optSum_cons_none]
      rfl
  · intro hm0 i hi'
    have hlen1 : i <
        (regionprops_table (components mask) (normalizeImage img)).length := by
      simpa [regionprops_table, List.enum_length] using hi'
    have hlen2 : i < (components mask).enum.length := by
      simpa [List.enum_length] using hi'
    rw [hnodes, getD_map_of_lt _ _ i hlen1 dN ⟨0, 0, 0, 0, none, none, none⟩]
    unfold regionprops_table
    rw [getD_map_of_lt _ _ i hlen2 _ (0, []), enum_getD _ i hi' []]
    show optMean (regionVals (normalizeImage img)
      ((components mask).getD i [])) = some _
    have hcm : (components mask).getD i [] ∈ components mask :=
      getD_mem _ _ _ hi'
    obtain ⟨-, hsub⟩ := components_mem mask ((components mask).getD i []) hcm
    have hv : regionVals (normalizeImage img) ((components mask).getD i []) =
        ((components mask).getD i []).map fun p =>
          some (gget img 0 p / imageMax img) := by
      unfold regionVals
      apply List.map_congr_left
      intro p hp
      have hfg := hsub p hp
      rw [mem_fgPixels] at hfg
      have e1 : mask.length = H := hm.1
      have e2 : img.length = H := hi.1
      have hp1 : p.1 < img.length := by omega
      have hp2 : p.2 < (img.getD p.1 []).length := by
        have hml : (mask.getD p.1 []).length = W :=
          hm.2 _ (getD_mem _ _ _ hfg.1)
        have himl : (img.getD p.1 []).length = W :=
          hi.2 _ (getD_mem _ _ _ hp1)
        have := hfg.2.1
        omega
      rw [gget_normalizeImage img p hp2]
      simp only [pixelDivMax, if_neg hm0]
    rw [hv]
    unfold optMean
    rw [optSum_map_div ((components mask).getD i [])
      (fun p => gget img 0 p) (imageMax img), List.length_map]
    show some ((((components mask).getD i []).map fun p =>
        gget img 0 p).sum / imageMax img /
        (((components mask).getD i []).length : ℚ)) = some _
    rw [div_div]

/-- Claim C3 counterexample.  On a mask with one foreground component
and a uniformly zero intensity image (maximum 0), `atom_mask_to_graph`
does NOT fail: it returns a one-node graph whose intensity attribute
is undefined (numpy's silent 0/0), contradicting the claimed
`EmptyIntensityError`. -/
theorem zero_max_intensity_returns_graph :
    (atom_mask_to_graph [[1, 0], [0, 0]] [[0, 0], [0, 0]]
      (1 / 10) 4).1.nodes.length = 1 ∧
    ((atom_mask_to_graph [[1, 0], [0, 0]] [[0, 0], [0, 0]]
      (1 / 10) 4).1.nodes.getD 0 dN).intensity = none := by
  with_unfolding_all decide

/-- Witness for `atom_mask_to_graph_normalization`: one-component mask
over the image `[[2, 0], [0, 4]]` with maximum 4; the node carries the
region's raw sum divided by `max * area`. -/
theorem atom_mask_to_graph_normalization_witness :
    (atom_mask_to_graph [[1, 0], [0, 0]] [[2, 0], [0, 4]]
      (1 / 10) 4).1.nodes.length = (components [[1, 0], [0, 0]]).length ∧
    ((atom_mask_to_graph [[1, 0], [0, 0]] [[2, 0], [0, 4]]
      (1 / 10) 4).1.nodes.getD 0 dN).intensity =
      some ((((components [[1, 0], [0, 0]]).getD 0 []).map fun p =>
          gget [[2, 0], [0, 4]] 0 p).sum /
        (imageMax [[2, 0], [0, 4]] *
          (((components [[1, 0], [0, 0]]).getD 0 []).length : ℚ))) := by
  have h := atom_mask_to_graph_normalization [[1, 0], [0, 0]]
    [[2, 0], [0, 4]] (1 / 10) 4 2 2 ⟨rfl, by decide⟩ ⟨rfl, by decide⟩
  exact ⟨h.1, h.2.2 (by with_unfolding_all decide) 0 (by decide)⟩

/-! ## Radius-graph edge lemmas -/

theorem mem_query_pairs (pts : List (ℚ × ℚ)) (r : ℚ) (i j : ℕ) :
    (i, j) ∈ query_pairs pts r ↔ i < j ∧ j < pts.length ∧
      dist2 (pts.getD i (0, 0)) (pts.getD j (0, 0)) ≤ r ^ 2 := by
  simp only [query_pairs, List.mem_flatMap, List.mem_filterMap,
    List.mem_range]
  constructor
  · rintro ⟨i', hi', j', hj', hsome⟩
    by_cases hd : i' < j' ∧
        dist2 (pts.getD i' (0, 0)) (pts.getD j' (0, 0)) ≤ r ^ 2
    · rw [if_pos hd] at hsome
      simp only [Option.some.injEq, Prod.mk.injEq] at hsome
      obtain ⟨rfl, rfl⟩ := hsome
      exact ⟨hd.1, hj', hd.2⟩
    · rw [if_neg hd] at hsome
      exact absurd hsome (by simp)
  · rintro ⟨hij, hj, hd⟩
    exact ⟨i, lt_trans hij hj, j, hj, by rw [if_pos ⟨hij, hd⟩]⟩

theorem query_pairs_inner_fst (pts : List (ℚ × ℚ)) (r : ℚ) (i : ℕ)
    (x : ℕ × ℕ)
    (hx : x ∈ (List.range pts.length).filterMap fun j =>
      if i < j ∧ dist2 (pts.getD i (0, 0)) (pts.getD j (0, 0)) ≤ r ^ 2 then
        some (i, j)
      else none) : x.1 = i := by
  obtain ⟨j, -, hsome⟩ := List.mem_filterMap.mp hx
  by_cases h : i < j ∧ dist2 (pts.getD i (0, 0)) (pts.getD j (0, 0)) ≤ r ^ 2
  · rw [if_pos h] at hsome
    cases hsome
    rfl
  · rw [if_neg h] at hsome
    cases hsome

theorem query_pairs_nodup (pts : List (ℚ × ℚ)) (r : ℚ) :
    (query_pairs pts r).Nodup := by
  unfold query_pairs
  rw [List.nodup_flatMap]
  constructor
  · intro i hi
    apply List.Nodup.filterMap ?_ (List.nodup_range _)
    intro a a' x hx hx'
    have h1 : a = x.2 := by
      rcases Option.mem_def.mp hx with hsome
      by_cases h : i < a ∧ dist2 (pts.getD i (0, 0)) (pts.getD a (0, 0)) ≤ r ^ 2
      · rw [if_pos h] at hsome
        cases hsome
        rfl
      · rw [if_neg h] at hsome
        cases hsome
    have h2 : a' = x.2 := by
      rcases Option.mem_def.mp hx' with hsome
      by_cases h : i < a' ∧
          dist2 (pts.getD i (0, 0)) (pts.getD a' (0, 0)) ≤ r ^ 2
      · rw [if_pos h] at hsome
        cases hsome
        rfl
      · rw [if_neg h] at hsome
        cases hsome
    rw [h1, h2]
  · have hnd : (List.range pts.length).Nodup := List.nodup_range _
    exact hnd.imp fun {a b} hne x hxa hxb =>
      hne (by rw [← query_pairs_inner_fst pts r a x hxa,
        ← query_pairs_inner_fst pts r b x hxb])

/-- Claim C5.  Edge construction in `atom_mask_to_graph` is
boundary-inclusive: an edge `(i, j)` exists iff `i < j`, both indices
are nodes, and the Euclidean physical distance of the two centroids is
at most the cutoff (a pair exactly at the cutoff is included);
self-edges are excluded and each unordered pair appears at most once
(only as `(i, j)` with `i < j`, and the edge list has no duplicates). -/
theorem atom_mask_to_graph_edges_iff (label : Grid ℕ) (img : Grid ℚ)
    (px cut : ℚ) (hc : 0 ≤ cut) (i j : ℕ) :
    ((i, j) ∈ (atom_mask_to_graph label img px cut).1.edges ↔
      i < j ∧ j < (atom_mask_to_graph label img px cut).1.nodes.length ∧
      Real.sqrt ((dist2
        (nodePoint ((atom_mask_to_graph label img px cut).1.nodes.getD i dN))
        (nodePoint ((atom_mask_to_graph label img px cut).1.nodes.getD j dN))
        : ℚ)) ≤ (cut : ℝ)) ∧
    ((i, j) ∈ (atom_mask_to_graph label img px cut).1.edges → i ≠ j) ∧
    ((i, j) ∈ (atom_mask_to_graph label img px cut).1.edges →
      (j, i) ∉ (atom_mask_to_graph label img px cut).1.edges) ∧
    (atom_mask_to_graph label img px cut).1.edges.Nodup := by
  have hedges : (atom_mask_to_graph label img px cut).1.edges =
      query_pairs ((regionprops_table (components label)
        (normalizeImage img)).map fun row =>
          (row.centroid1 * px, row.centroid0 * px)) cut := rfl
  have hnodes : (atom_mask_to_graph label img px cut).1.nodes =
      (regionprops_table (components label) (normalizeImage img)).map
        fun row => { pos := (row.centroid1 * px, row.centroid0 * px, 0),
                     intensity := row.mean_intensity : AtomNode } := rfl
  have hlen : ((regionprops_table (components label)
      (normalizeImage img)).map fun row =>
        (row.centroid1 * px, row.centroid0 * px)).length =
      (atom_mask_to_graph label img px cut).1.nodes.length := by
    rw [hnodes, List.length_map, List.length_map]
  have hpt : ∀ k, k < (regionprops_table (components label)
      (normalizeImage img)).length →
      ((regionprops_table (components label) (normalizeImage img)).map
        fun row => (row.centroid1 * px, row.centroid0 * px)).getD k (0, 0) =
      nodePoint ((atom_mask_to_graph label img px cut).1.nodes.getD k dN) := by
    intro k hk
    rw [hnodes, getD_map_of_lt _ _ k hk _ ⟨0, 0, 0, 0, none, none, none⟩,
      getD_map_of_lt _ _ k hk _ ⟨0, 0, 0, 0, none, none, none⟩]
    rfl
  have hsq : ∀ d2 : ℚ, 0 ≤ d2 →
      (Real.sqrt (d2 : ℝ) ≤ (cut : ℝ) ↔ d2 ≤ cut ^ 2) := by
    intro d2 hd
    rw [Real.sqrt_le_iff]
    constructor
    · rintro ⟨-, h⟩
      exact_mod_cast h
    · intro h
      exact ⟨by exact_mod_cast hc, by exact_mod_cast h⟩
  have hd2 : ∀ a b : ℚ × ℚ, (0 : ℚ) ≤ dist2 a b := by
    intro a b
    unfold dist2
    positivity
  refine ⟨?_, ?_, ?_, ?_⟩
  · rw [hedges, mem_query_pairs]
    constructor
    · rintro ⟨hij, hjl, hd⟩
      have hjp : j < (regionprops_table (components label)
          (normalizeImage img)).length := by
        rw [List.length_map] at hjl
        exact hjl
      have hip : i < (regionprops_table (components label)
          (normalizeImage img)).length := lt_trans hij hjp
      rw [hpt i hip, hpt j hjp] at hd
      exact ⟨hij, by rw [← hlen]; exact hjl, (hsq _ (hd2 _ _)).mpr hd⟩
    · rintro ⟨hij, hjl, hd⟩
      have hjp : j < (regionprops_table (components label)
          (normalizeImage img)).length := by
        rw [hnodes, List.length_map] at hjl
        exact hjl
      have hip : i < (regionprops_table (components label)
          (normalizeImage img)).length := lt_trans hij hjp
      refine ⟨hij, by rw [hlen]; exact hjl, ?_⟩
      rw [hpt i hip, hpt j hjp]
      exact (hsq _ (hd2 _ _)).mp hd
  · intro hmem
    rw [hedges, mem_query_pairs] at hmem
    omega
  · intro hmem hmem'
    rw [hedges, mem_query_pairs] at hmem hmem'
    omega
  · rw [hedges]
    exact query_pairs_nodup _ cut

/-- Witness for `atom_mask_to_graph_edges_iff`: two single-pixel
components 30 pixels apart at pixel scale 1/10, cutoff 3 — the
centroid distance is exactly the cutoff, and the edge is included
(boundary-inclusive), only as `(0, 1)`. -/
theorem atom_mask_to_graph_edges_iff_witness :
    (0, 1) ∈ (atom_mask_to_graph [exampleRowN] [exampleRow]
      (1 / 10) 3).1.edges ∧
    (1, 0) ∉ (atom_mask_to_graph [exampleRowN] [exampleRow]
      (1 / 10) 3).1.edges := by
  have h := atom_mask_to_graph_edges_iff [exampleRowN] [exampleRow]
    (1 / 10) 3 (by with_unfolding_all decide) 0 1
  have hd9 : (dist2
      (nodePoint ((atom_mask_to_graph [exampleRowN] [exampleRow]
        (1 / 10) 3).1.nodes.getD 0 dN))
      (nodePoint ((atom_mask_to_graph [exampleRowN] [exampleRow]
        (1 / 10) 3).1.nodes.getD 1 dN)) : ℚ) = 9 := by
    with_unfolding_all decide
  have hmem : (0, 1) ∈ (atom_mask_to_graph [exampleRowN] [exampleRow]
      (1 / 10) 3).1.edges := by
    refine h.1.mpr ⟨by decide, by with_unfolding_all decide, ?_⟩
    rw [hd9]
    rw [show ((9 : ℚ) : ℝ) = (3 : ℝ) ^ 2 by norm_num,
      Real.sqrt_sq (by norm_num : (0 : ℝ) ≤ 3)]
    norm_num
  exact ⟨hmem, h.2.2.1 hmem⟩

/-! ## Bond vectors, the graph sample pipeline, and the dataset layer -/

/-- Claim C8.  `bond_vectors` is destination-minus-source: entry `i` of
its output is `vsub v u` for the `i`-th edge `(u, v)`, and whenever
`u ≠ v` it differs from the negated vector `vsub u v`. -/
theorem bond_vectors_directionality
    (edges : List ((ℚ × ℚ × ℚ) × (ℚ × ℚ × ℚ))) (i : ℕ)
    (hi : i < edges.length) :
    (bond_vectors edges).length = edges.length ∧
    (bond_vectors edges).getD i (0, 0, 0) =
      vsub (edges.getD i ((0, 0, 0), (0, 0, 0))).2
        (edges.getD i ((0, 0, 0), (0, 0, 0))).1 ∧
    ((edges.getD i ((0, 0, 0), (0, 0, 0))).1 ≠
        (edges.getD i ((0, 0, 0), (0, 0, 0))).2 →
      (bond_vectors edges).getD i (0, 0, 0) ≠
        vsub (edges.getD i ((0, 0, 0), (0, 0, 0))).1
          (edges.getD i ((0, 0, 0), (0, 0, 0))).2) := by
  have hval : (bond_vectors edges).getD i (0, 0, 0) =
      vsub (edges.getD i ((0, 0, 0), (0, 0, 0))).2
        (edges.getD i ((0, 0, 0), (0, 0, 0))).1 := by
    unfold bond_vectors
    rw [getD_map_of_lt _ _ i hi _ ((0, 0, 0), (0, 0, 0))]
  refine ⟨by unfold bond_vectors; exact List.length_map .., hval, ?_⟩
  intro hne heq
  rw [hval] at heq
  apply hne
  unfold vsub at heq
  rw [Prod.ext_iff, Prod.ext_iff] at heq
  obtain ⟨e1, e2, e3⟩ := heq
  simp only at e1 e2 e3
  have g1 : (edges.getD i ((0, 0, 0), (0, 0, 0))).1.1 =
      (edges.getD i ((0, 0, 0), (0, 0, 0))).2.1 := by linarith
  have g2 : (edges.getD i ((0, 0, 0), (0, 0, 0))).1.2.1 =
      (edges.getD i ((0, 0, 0), (0, 0, 0))).2.2.1 := by linarith
  have g3 : (edges.getD i ((0, 0, 0), (0, 0, 0))).1.2.2 =
      (edges.getD i ((0, 0, 0), (0, 0, 0))).2.2.2 := by linarith
  exact Prod.ext g1 (Prod.ext g2 g3)

/-- Witness for `bond_vectors_directionality` on the single edge from
the origin to `(1, 2, 3)`. -/
theorem bond_vectors_directionality_witness :
    (bond_vectors [(((0 : ℚ), (0 : ℚ), (0 : ℚ)),
      ((1 : ℚ), (2 : ℚ), (3 : ℚ)))]).getD 0 (0, 0, 0) =
      vsub ((1 : ℚ), (2 : ℚ), (3 : ℚ)) ((0 : ℚ), (0 : ℚ), (0 : ℚ)) ∧
    (bond_vectors [(((0 : ℚ), (0 : ℚ), (0 : ℚ)),
      ((1 : ℚ), (2 : ℚ), (3 : ℚ)))]).getD 0 (0, 0, 0) ≠
      vsub ((0 : ℚ), (0 : ℚ), (0 : ℚ)) ((1 : ℚ), (2 : ℚ), (3 : ℚ)) := by
  have h := bond_vectors_directionality
    [(((0 : ℚ), (0 : ℚ), (0 : ℚ)), ((1 : ℚ), (2 : ℚ), (3 : ℚ)))] 0
    (by decide)
  exact ⟨h.2.1, h.2.2 (by with_unfolding_all decide)⟩

set_option maxRecDepth 4000 in
/-- Claim C1 evaluation.  Running `Jarvis2dSTEMGraphDataset.__getitem__`
(debug path, `px_scale = 1/10`) on two single-pixel components 30
pixels apart: `atom_mask_to_graph` already converts the node positions
to angstrom with its default `px_angstrom = 0.1` (physical displacement
`(3, 0, 0)`), and line 285 multiplies the bond vectors by `px_scale`
AGAIN, so the stored edge attribute is `(3/10, 0, 0)` — the pixel scale
is applied twice, and the stored bond vector differs from the physical
displacement `pos(v) - pos(u)`. -/
theorem graph_getitem_bond_double_scaled :
    (graphDatasetGetitem Unit exampleGraphDataset exampleRadii exampleSim 0
      exampleDraws).map (fun gs => gs.dgl_edges) = .ok [(0, 1), (1, 0)] ∧
    (graphDatasetGetitem Unit exampleGraphDataset exampleRadii exampleSim 0
      exampleDraws).map (fun gs => gs.edata_r) =
      .ok [(3 / 10, 0, 0), (-(3 / 10), 0, 0)] ∧
    (graphDatasetGetitem Unit exampleGraphDataset exampleRadii exampleSim 0
      exampleDraws).map (fun gs =>
        vsub (nodePos gs.g.nodes 1) (nodePos gs.g.nodes 0)) =
      .ok (3, 0, 0) ∧
    ((3 / 10 : ℚ), (0 : ℚ), (0 : ℚ)) ≠ ((3 : ℚ), (0 : ℚ), (0 : ℚ)) := by
  with_unfolding_all decide

/-- Claim C9.  Dataset construction fails, with the
`unsupportedLabelMode` error (`NotImplementedError` in source, checked
first in `__init__`, before anything else and before any sample
access), exactly when `label_mode` is neither `"delta"` nor
`"radius"`. -/
theorem dataset_init_label_mode (α : Type) (px : ℚ) (image_data : List α)
    (rot sh zm : Option ℚ) (tt : Option (Grid ℚ → Grid ℚ))
    (randperm : ℕ → List ℕ) (mode : String) :
    (isErr (datasetInit α px mode image_data rot sh zm tt randperm) = true ↔
      ¬(mode = "delta" ∨ mode = "radius")) ∧
    (¬(mode = "delta" ∨ mode = "radius") →
      datasetInit α px mode image_data rot sh zm tt randperm =
        .error (.unsupportedLabelMode mode)) := by
  have hmem : mode ∈ LABEL_MODES ↔ (mode = "delta" ∨ mode = "radius") := by
    simp [LABEL_MODES]
  unfold datasetInit
  by_cases h : mode ∈ LABEL_MODES
  · rw [if_pos h]
    simp [isErr, hmem.mp h]
  · rw [if_neg h]
    rw [hmem] at h
    simp [isErr, h]

/-- Witness for `dataset_init_label_mode` at the invalid mode
`"bogus"`. -/
theorem dataset_init_label_mode_witness :
    isErr (datasetInit Unit 1 "bogus" ([] : List Unit) none none none none
      exampleRandperm) = true ∧
    datasetInit Unit 1 "bogus" ([] : List Unit) none none none none
      exampleRandperm = .error (.unsupportedLabelMode "bogus") := by
  have h := dataset_init_label_mode Unit 1 ([] : List Unit) none none none
    none exampleRandperm "bogus"
  exact ⟨h.1.mpr (by decide), h.2 (by decide)⟩

/-- Claim C10.  `Jarvis2dSTEMGraphDataset.__init__` ignores its
`to_tensor` argument (construction results are identical for any two
values) and forwards none of the augmentation parameters, so the
constructed base dataset has `to_tensor = rotation_degrees =
shift_angstrom = zoom_pct = None`; consequently every access uses
identity rotation, zero shift and the unzoomed pixel scale, and
`__getitem__` does not depend on the augmentation randomness at all. -/
theorem graph_dataset_unaugmented (α : Type) (px : ℚ) (mode : String)
    (image_data : List α) (tt tt' : Option (Grid ℚ → Grid ℚ))
    (pc : Option (Grid ℚ → Grid ℕ)) (dbg : Bool)
    (randperm : ℕ → List ℕ) :
    graphDatasetInit α px mode image_data tt pc dbg randperm =
      graphDatasetInit α px mode image_data tt' pc dbg randperm ∧
    ∀ gd, graphDatasetInit α px mode image_data tt pc dbg randperm =
        .ok gd →
      gd.base.to_tensor = none ∧ gd.base.rotation_degrees = none ∧
      gd.base.shift_angstrom = none ∧ gd.base.zoom_pct = none ∧
      gd.base.px_scale = px ∧
      (∀ draws, effectiveParams α gd.base draws = (0, (0, 0), px)) ∧
      (∀ radii sim idx d₁ d₂,
        graphDatasetGetitem α gd radii sim idx d₁ =
          graphDatasetGetitem α gd radii sim idx d₂) := by
  refine ⟨rfl, ?_⟩
  intro gd hok
  unfold graphDatasetInit datasetInit at hok
  by_cases h : mode ∈ LABEL_MODES
  · rw [if_pos h] at hok
    simp only [Except.map] at hok
    injection hok with h2
    subst h2
    exact ⟨rfl, rfl, rfl, rfl, rfl, fun draws => rfl,
      fun radii sim idx d₁ d₂ => rfl⟩
  · rw [if_neg h] at hok
    exact absurd hok (by simp [Except.map])

/-- Witness for `graph_dataset_unaugmented`: a nontrivial `to_tensor`
argument produces the same dataset as `None`, the constructed base has
no augmentation, and two different draw sets give the same sample. -/
theorem graph_dataset_unaugmented_witness :
    graphDatasetInit Unit 1 "delta" ([] : List Unit) (some fun _ => [])
      none false exampleRandperm =
      graphDatasetInit Unit 1 "delta" ([] : List Unit) none none false
        exampleRandperm ∧
    exampleGraphDataset0.base.to_tensor = none ∧
    exampleGraphDataset0.base.rotation_degrees = none ∧
    effectiveParams Unit exampleGraphDataset0.base exampleDraws =
      (0, (0, 0), 1) ∧
    graphDatasetGetitem Unit exampleGraphDataset0 exampleRadii exampleSim 0
      exampleDraws =
      graphDatasetGetitem Unit exampleGraphDataset0 exampleRadii exampleSim 0
        exampleDraws2 := by
  have h := graph_dataset_unaugmented Unit 1 "delta" ([] : List Unit)
    (some fun _ => []) none none false exampleRandperm
  have hok : graphDatasetInit Unit 1 "delta" ([] : List Unit)
      (some fun _ => []) none false exampleRandperm =
      .ok exampleGraphDataset0 := by
    with_unfolding_all rfl
  have h3 := h.2 exampleGraphDataset0 hok
  exact ⟨h.1, h3.1, h3.2.1, h3.2.2.2.2.2.1 exampleDraws,
    h3.2.2.2.2.2.2 exampleRadii exampleSim 0 exampleDraws exampleDraws2⟩

end Atomvision
